import Mathlib

/-!
Verification of the lvsfunc rendering pipeline (src/lvsfunc/render.py) and the
f3kdb wrapper (src/lvsfunc/deband.py).

The embedding models `clip_async_render` as a state machine: each completion of
a frame future is one event, processed exactly as the completion callback `cb`
in the source does (store the frame, flush the maximal contiguous run starting
at the cursor, then issue at most one replacement request).  Python floats are
modelled as rationals together with an explicit round-to-nearest-even binary64
rounding function `fl` (IEEE-754 double precision with unbounded exponent
range; the source never reaches the subnormal or overflow regimes in the
situations covered by the theorems' hypotheses).  CPython semantics used in
the model: `int / int` produces the correctly rounded double of the exact
quotient, `float + float` and `float * float` are correctly rounded, `round`
rounds half to even, and an exception raised inside a callback registered via
`Future.add_done_callback` is logged and swallowed by the futures machinery,
so a failing `f.result()` call aborts the callback without mutating the
render context and without propagating to the driver thread.
-/

namespace Lvs

/-! ### Binary64 rounding model -/

/-- Fuel-driven floor of the base-2 logarithm (structural recursion so that
concrete values reduce inside the kernel). -/
def log2fuel : ℕ → ℕ → ℕ
  | 0, _ => 0
  | fuel + 1, n => if 2 ≤ n then log2fuel fuel (n / 2) + 1 else 0

/-- Floor of the base-2 logarithm of a positive natural number. -/
def nlog2 (n : ℕ) : ℕ := log2fuel n n

/-- Integer powers of two as rationals, written without `zpow` so that the
kernel evaluates them directly. -/
def pow2 (e : ℤ) : ℚ :=
  if 0 ≤ e then ((2 ^ e.toNat : ℕ) : ℚ) else (((2 ^ (-e).toNat : ℕ) : ℚ))⁻¹

/-- Floor of the base-2 logarithm of a positive rational: with `x = p / q` we
scale `p` by `2 ^ S` (any `S` with `2 ^ S > q` works) so that the floored
natural division `p * 2 ^ S / q` is at least 1, take its `nlog2`, and shift
back by `S`. -/
def flog2 (x : ℚ) : ℤ :=
  (nlog2 (x.num.toNat * 2 ^ (nlog2 x.den + 1) / x.den) : ℤ) - ((nlog2 x.den + 1 : ℕ) : ℤ)

/-- Round a rational to the nearest integer, ties to even (CPython `round`). -/
def rne (z : ℚ) : ℤ :=
  if z - ⌊z⌋ < 1/2 then ⌊z⌋
  else if (1/2 : ℚ) < z - ⌊z⌋ then ⌊z⌋ + 1
  else if ⌊z⌋ % 2 = 0 then ⌊z⌋ else ⌊z⌋ + 1

/-- Round a positive rational to the nearest binary64 value: 53 significant
bits, round to nearest, ties to even. -/
def flPos (x : ℚ) : ℚ :=
  ((rne (x / pow2 (flog2 x - 52)) : ℤ) : ℚ) * pow2 (flog2 x - 52)

/-- Round a rational to the nearest binary64 value (unbounded exponent). -/
def fl (x : ℚ) : ℚ :=
  if x = 0 then 0 else if 0 < x then flPos x else -flPos (-x)

/-- Rationals exactly representable as binary64 values (or zero): a 53-bit
significand times a power of two. -/
def FRepr (x : ℚ) : Prop :=
  x = 0 ∨ ∃ (m : ℕ) (e : ℤ), x = (m : ℚ) * pow2 e ∧ 2 ^ 52 ≤ m ∧ m < 2 ^ 53

/-! ### Frames and render state

A `Frame` models `vs.VideoFrame` at the boundary the renderer reads: the
optional duration properties consumed by the timecode logic, and the two
scene-change flags written by the wwxd / scxvid plugins and read by
`find_scene_changes` through `get_prop`.  (`get_prop` lives in the
repository's `util.py`, which only performs the property lookup; it is
modelled here as direct field access, and the renderer only calls it after
checking that the property is present.) -/

structure Frame where
  durNum : Option ℤ
  durDen : Option ℤ
  scenechange : ℤ
  sceneChangePrev : ℤ
deriving DecidableEq

/-- A line of the timecodes v2 text sink: the header written at start of
render, or one integer-millisecond data line per flushed frame. -/
inductive TcLine where
  | header : TcLine
  | data : ℤ → TcLine
deriving DecidableEq

/-- True when the frame is missing `_DurationNum` or `_DurationDen`
(render.py line 115). -/
def missingDur (f : Frame) : Bool :=
  f.durNum.isNone || f.durDen.isNone

/-- The float duration of a frame: CPython `int / int` true division is the
correctly rounded double of the exact quotient (render.py lines 125-126; the
`getD 0` defaults are never consulted on the paths where this is used, since
the caller has checked both properties are present). -/
def durFl (f : Frame) : ℚ :=
  fl (((f.durNum.getD 0 : ℤ) : ℚ) / ((f.durDen.getD 0 : ℤ) : ℚ))

/-- Cumulative presentation time after `n` flushed frames, accrued exactly as
render.py lines 124-126 do with Python floats:
`timecodes.append(timecodes[-1] + num / den)` is one correctly rounded
division followed by one correctly rounded addition. -/
def accrTime (fs : ℕ → Frame) : ℕ → ℚ
  | 0 => 0
  | n + 1 => fl (accrTime fs n + durFl (fs n))

/-- The timecode line written for frame `n` (render.py line 49):
`round(ctx.timecodes[ctx.frames_rendered] * 1000)` — one correctly rounded
float multiplication, then Python banker's rounding. -/
def tcLineFor (fs : ℕ → Frame) (n : ℕ) : TcLine :=
  TcLine.data (rne (fl (accrTime fs n * 1000)))

/-- The mutable state of one render operation: the fields of `RenderContext`
(render.py lines 20-37), the `bad_timecodes` / `timecodes`-handle nonlocals of
`clip_async_render`, the contents of both sinks, and ghost trace fields
(`outWrites`, `cbFrames`, `requests`, `completions`, `swallowed`,
`diagnostics`) recording the externally observable events. -/
structure RenderState where
  numFrames : ℕ        -- clip.num_frames
  windowW : ℕ          -- core.num_threads
  hasOutfile : Bool    -- outfile is not None
  queued : ℕ           -- ctx.queued
  buffer : List (ℕ × Frame)  -- ctx.frames (dict keyed by frame index)
  framesRendered : ℕ   -- ctx.frames_rendered
  timecodes : List ℚ   -- ctx.timecodes
  badTimecodes : Bool  -- the bad_timecodes nonlocal
  tcHandleOpen : Bool  -- the timecodes handle nonlocal is still set
  tcFile : List TcLine -- contents of the timecodes sink
  outWrites : List ℕ   -- indices of frames written to the y4m sink, in order
  cbFrames : List (ℕ × Frame)  -- (index, frame) handed to every callback, in order
  diagnostics : ℕ      -- number of missing-duration diagnostics printed
  requests : List ℕ    -- indices passed to get_frame_async, in order
  completions : List ℕ -- indices whose futures have completed, in order
  swallowed : ℕ        -- callback exceptions swallowed by the futures machinery
deriving DecidableEq

/-- Association-list lookup for the frame dict. -/
def lookupFr (n : ℕ) : List (ℕ × Frame) → Option Frame
  | [] => none
  | kv :: rest => if kv.1 = n then some kv.2 else lookupFr n rest

/-- Remove the entry with key `n` (Python `del ctx.frames[n]`). -/
def eraseFr (n : ℕ) : List (ℕ × Frame) → List (ℕ × Frame)
  | [] => []
  | kv :: rest => if kv.1 = n then rest else kv :: eraseFr n rest

/-- Dict insertion `ctx.frames[n] = f` (overwriting semantics). -/
def insertFr (n : ℕ) (f : Frame) (l : List (ℕ × Frame)) : List (ℕ × Frame) :=
  (n, f) :: eraseFr n l

/-- The timecode bookkeeping for the frame about to be flushed
(render.py lines 113-126). -/
def tcUpdate (frame : Frame) (s : RenderState) : RenderState :=
  if missingDur frame && !s.badTimecodes then
    -- lines 116-122: flag, truncate the file from position 0 (this wipes the
    -- header as well), drop the handle, clear ctx.timecodes, print once
    { s with badTimecodes := true, tcFile := [], tcHandleOpen := false,
             timecodes := [], diagnostics := s.diagnostics + 1 }
  else if !s.badTimecodes then
    -- lines 123-126: append timecodes[-1] + num / den (float arithmetic)
    { s with timecodes := s.timecodes ++ [fl (s.timecodes.getLastD 0 + durFl frame)] }
  else s

/-- The timecode half of `finish_frame` (render.py lines 48-49): write
`round(timecodes[frames_rendered] * 1000)` when the handle is still set. -/
def tcWrite (s : RenderState) : RenderState :=
  if s.tcHandleOpen then
    { s with tcFile :=
        s.tcFile ++ [TcLine.data (rne (fl (s.timecodes.getD s.framesRendered 0 * 1000)))] }
  else s

/-- The y4m half of `finish_frame` (render.py lines 50-61): a FRAME record for
the frame at the cursor.  The per-plane bytes (with stride stripping) are not
needed by any claim, so the ghost trace records the flushed index. -/
def outWrite (s : RenderState) : RenderState :=
  if s.hasOutfile then { s with outWrites := s.outWrites ++ [s.framesRendered] } else s

/-- Dispatch to every registered callback (render.py line 128); all callbacks
in `cbl` receive the same (index, frame) pair, recorded once here. -/
def cbDispatch (frame : Frame) (s : RenderState) : RenderState :=
  { s with cbFrames := s.cbFrames ++ [(s.framesRendered, frame)] }

/-- Delete the flushed frame and advance the cursor (render.py lines 129-130). -/
def advance (s : RenderState) : RenderState :=
  { s with buffer := eraseFr s.framesRendered s.buffer,
           framesRendered := s.framesRendered + 1 }

/-- One iteration of the flush loop body (render.py lines 113-130). -/
def flushOne (s : RenderState) (frame : Frame) : RenderState :=
  advance (cbDispatch frame (outWrite (tcWrite (tcUpdate frame s))))

/-- The flush loop `while ctx.frames_rendered in ctx.frames` (render.py
line 109).  Each iteration deletes one dict entry, so the buffer size is
always enough fuel; callers pass `s.buffer.length`. -/
def flushLoop : ℕ → RenderState → RenderState
  | 0, s => s
  | fuel + 1, s =>
    match lookupFr s.framesRendered s.buffer with
    | none => s
    | some f => flushLoop fuel (flushOne s f)

/-- Processing of a successfully completed future for index `n`: the body of
`cb` (render.py lines 105-140).  `nn = ctx.queued` is read before the flush
loop; afterwards, if `nn < clip.num_frames`, exactly one replacement request
for index `nn` is issued and `ctx.queued` is incremented. -/
def stepOk (fs : ℕ → Frame) (s : RenderState) (n : ℕ) : RenderState :=
  let s1 : RenderState :=
    { s with buffer := insertFr n (fs n) s.buffer,
             completions := s.completions ++ [n] }
  let nn := s1.queued
  let s2 := flushLoop s1.buffer.length s1
  if nn < s2.numFrames then
    { s2 with queued := s2.queued + 1, requests := s2.requests ++ [nn] }
  else s2

/-- Processing of a future that resolved to an error: `f.result()` on
render.py line 106 raises, the exception propagates out of the done-callback
and is logged and swallowed by `concurrent.futures`; no field of the render
context is mutated, no flush happens, no replacement request is issued, and
the condition is never notified from this callback. -/
def stepErr (s : RenderState) (n : ℕ) : RenderState :=
  { s with completions := s.completions ++ [n], swallowed := s.swallowed + 1 }

/-- A completion event of the frame source: the future for index `n` resolved
to a frame, or to an error. -/
inductive REvent where
  | ok : ℕ → REvent
  | err : ℕ → REvent
deriving DecidableEq

/-- Process one completion event. -/
def stepEv (fs : ℕ → Frame) (s : RenderState) : REvent → RenderState
  | .ok n => stepOk fs s n
  | .err n => stepErr s n

/-- Process a sequence of completion events in order.  The source serializes
the interesting interleavings: each callback's mutations happen inside the
single linearized completion that triggered them. -/
def runEvents (fs : ℕ → Frame) : RenderState → List REvent → RenderState
  | s, [] => s
  | s, e :: rest => runEvents fs (stepEv fs s e) rest

/-- The state after the synchronous prefix of `clip_async_render`
(render.py lines 101-183): `RenderContext(clip, core.num_threads)` sets
`queued = W` and `timecodes = [0.0]`, the timecodes header is written when a
handle is given, and the driver seeds `min(num_frames, num_threads)` requests
for indices `0 .. min-1`. -/
def initState (N W : ℕ) (hasOut hasTc : Bool) : RenderState :=
  { numFrames := N, windowW := W, hasOutfile := hasOut, queued := W,
    buffer := [], framesRendered := 0, timecodes := [0],
    badTimecodes := false, tcHandleOpen := hasTc,
    tcFile := if hasTc then [TcLine.header] else [],
    outWrites := [], cbFrames := [], diagnostics := 0,
    requests := List.range (min N W), completions := [], swallowed := 0 }

/-- The render state after seeding and then processing the given completion
events. -/
def runRender (fs : ℕ → Frame) (N W : ℕ) (hasOut hasTc : Bool)
    (evs : List REvent) : RenderState :=
  runEvents fs (initState N W hasOut hasTc) evs

/-- The indices flushed by each successful completion, in arrival order: the
per-event batches handed to sinks and callbacks. -/
def flushBatches (fs : ℕ → Frame) : RenderState → List ℕ → List (List ℕ)
  | _, [] => []
  | s, n :: rest =>
    ((stepOk fs s n).cbFrames.drop s.cbFrames.length).map Prod.fst
      :: flushBatches fs (stepOk fs s n) rest

/-- Requests issued but not yet completed. -/
def inFlight (s : RenderState) : ℕ := s.requests.length - s.completions.length

/-- Frame indices not yet requested from the source. -/
def remainingUnrequested (s : RenderState) : ℕ := s.numFrames - s.requests.length

/-- A frame function is division-safe when no frame carrying both duration
properties has `_DurationDen = 0` (Python would raise `ZeroDivisionError`
inside the callback there, which the embedding does not model). -/
@[reducible] def DensOk (fs : ℕ → Frame) (N : ℕ) : Prop :=
  ∀ k, k < N → missingDur (fs k) = false → ¬ ((fs k).durDen = some 0)

/-! ### Configuration validation and the y4m header (render.py lines 142-170) -/

inductive ColorFamily where
  | gray : ColorFamily
  | yuv : ColorFamily
  | rgb : ColorFamily
deriving DecidableEq

structure ClipFormat where
  colorFamily : ColorFamily
  subsamplingW : ℕ
  subsamplingH : ℕ
  bitsPerSample : ℕ
deriving DecidableEq

/-- The configuration errors raised before rendering starts.  `variableFormat`
is the line-144 ValueError for `clip.format is None`, `badColorFamily` the
line-146 ValueError for families other than YUV and GRAY, and
`badSubsampling` the line-164 ValueError for an unsupported subsampling
pair. -/
inductive RenderError where
  | variableFormat : RenderError
  | badColorFamily : RenderError
  | badSubsampling : RenderError
deriving DecidableEq

/-- The base format tag (render.py lines 145-164). -/
def headerTag (fmt : ClipFormat) : Except RenderError String :=
  if fmt.colorFamily ≠ ColorFamily.yuv ∧ fmt.colorFamily ≠ ColorFamily.gray then
    Except.error RenderError.badColorFamily
  else if fmt.colorFamily = ColorFamily.gray then Except.ok ("mono")
  else if (fmt.subsamplingW, fmt.subsamplingH) = (1, 1) then Except.ok ("420")
  else if (fmt.subsamplingW, fmt.subsamplingH) = (1, 0) then Except.ok ("422")
  else if (fmt.subsamplingW, fmt.subsamplingH) = (0, 0) then Except.ok ("444")
  else if (fmt.subsamplingW, fmt.subsamplingH) = (2, 2) then Except.ok ("410")
  else if (fmt.subsamplingW, fmt.subsamplingH) = (2, 0) then Except.ok ("411")
  else if (fmt.subsamplingW, fmt.subsamplingH) = (0, 1) then Except.ok ("440")
  else Except.error RenderError.badSubsampling

/-- The bit-depth suffix (render.py line 166): append `p<bits>` exactly when
`bits_per_sample > 8`. -/
def withBits (tag : String) (bits : ℕ) : String :=
  if 8 < bits then tag ++ "p" ++ toString bits else tag

/-- The complete format tag placed in the y4m header. -/
def y4mformat (fmt : ClipFormat) : Except RenderError String :=
  (headerTag fmt).map (fun t => withBits t fmt.bitsPerSample)

/-- Validation performed when an outfile is given (render.py lines 142-170):
a variable-format clip (`clip.format is None`) is rejected first, then the
family / subsampling checks of `headerTag`. -/
def checkOutput (fmt : Option ClipFormat) : Except RenderError String :=
  match fmt with
  | none => Except.error RenderError.variableFormat
  | some f => y4mformat f

/-- Top-level `clip_async_render`: the validation block runs only under
`if outfile:` (render.py line 142); then the render proceeds and the function
returns `ctx.timecodes` (line 191). -/
def clip_async_render (fmt : Option ClipFormat) (hasOut hasTc : Bool)
    (fs : ℕ → Frame) (N W : ℕ) (evs : List REvent) : Except RenderError (List ℚ) :=
  match (if hasOut then (checkOutput fmt).map (fun _ => ()) else Except.ok ()) with
  | Except.error e => Except.error e
  | Except.ok _ => Except.ok (runRender fs N W hasOut hasTc evs).timecodes

/-! ### Scene-change detection (render.py lines 205-255) -/

inductive SceneChangeMode where
  | WWXD : SceneChangeMode
  | SCXVID : SceneChangeMode
  | WWXD_SCXVID_UNION : SceneChangeMode
  | WWXD_SCXVID_INTERSECTION : SceneChangeMode
deriving DecidableEq

/-- The per-frame condition checked by the `_cb` closure (lines 239-251):
`Scenechange == 1` for wwxd, `_SceneChangePrev == 1` for scxvid, their
disjunction and conjunction for the combined modes. -/
def sceneChangeFlag (mode : SceneChangeMode) (f : Frame) : Bool :=
  match mode with
  | .WWXD => f.scenechange == 1
  | .SCXVID => f.sceneChangePrev == 1
  | .WWXD_SCXVID_UNION => f.scenechange == 1 || f.sceneChangePrev == 1
  | .WWXD_SCXVID_INTERSECTION => f.scenechange == 1 && f.sceneChangePrev == 1

/-- `find_scene_changes`: render the (plugin-tagged) clip with a callback that
appends the index of every flagged frame, then return `sorted(frames)`.
`fs` is the frame function of the clip after the resize and wwxd / scxvid
plugin calls (external boundary). -/
def find_scene_changes (fs : ℕ → Frame) (N W : ℕ) (mode : SceneChangeMode)
    (arr : List ℕ) : List ℕ :=
  List.insertionSort (· ≤ ·)
    (((runRender fs N W false false (arr.map REvent.ok)).cbFrames.filter
        (fun nf => sceneChangeFlag mode nf.2)).map Prod.fst)

/-! ### The f3kdb wrapper (deband.py lines 226-267) -/

/-- The slice of `vs.VideoNode` that `f3kdb_mod` inspects. -/
structure VideoClip where
  width : ℕ
  height : ℕ
  bits : ℕ                 -- format.bits_per_sample
  colorFamily : ColorFamily
  subsamplingNone : Bool   -- get_subsampling(clip) is None
deriving DecidableEq

/-- vsutil `depth`: bit-depth conversion (external boundary; only the
resulting depth matters to the wrapper's control flow). -/
def vsDepth (c : VideoClip) (b : ℕ) : VideoClip := { c with bits := b }

/-- The external (neo_)f3kdb `Deband` plugin call: produces a clip at the
requested output depth. -/
def f3kdbDeband (c : VideoClip) (_range _y _cb _cr _grainy _grainc : ℤ)
    (_tvRange : Bool) (outputDepth : ℕ) : VideoClip :=
  { c with bits := outputDepth }

/-- deband.py lines 226-267.  Note the function body ends with
`if get_depth(clip) == 16: return depth(deb, get_depth(clip))` and no other
return, so Python returns `None` whenever the working clip's depth is not 16
after the `bits > 16` conversion. -/
def f3kdb_mod (clip : VideoClip) (range : Option ℤ) (y : ℤ)
    (cb cr : Option ℤ) (grainy grainc : ℤ) : Option VideoClip :=
  let bits := clip.bits
  let tvRange := clip.colorFamily = ColorFamily.gray ∨ clip.colorFamily = ColorFamily.yuv
  let range := range.getD (if clip.width < 1800 ∧ clip.height < 1000 then 12 else 16)
  let cb := cb.getD (if clip.subsamplingNone then y else Int.fdiv y 2)
  let cr := cr.getD cb
  let clip := if 16 < bits then vsDepth clip 16 else clip
  let deb := f3kdbDeband clip range y cb cr grainy grainc (decide tvRange) (min clip.bits 16)
  if clip.bits = 16 then some (vsDepth deb clip.bits) else none

/-! ### Concrete fixtures used by the scenario theorems -/

/-- Every frame carries duration 1/1. -/
def fsOne : ℕ → Frame := fun _ => ⟨some 1, some 1, 0, 0⟩

/-- Frame 3 is missing its duration properties; all others carry 1/1
(the scenario of spec section 8: frame 3 of 10 has no duration property). -/
def fs3 : ℕ → Frame := fun n =>
  if n = 3 then ⟨none, none, 0, 0⟩ else ⟨some 1, some 1, 0, 0⟩

/-- Every frame carries duration 1/3 of a second, which is not a binary64
value. -/
def fsThird : ℕ → Frame := fun _ => ⟨some 1, some 3, 0, 0⟩

/-- Frames carrying scene-change flags: wwxd flags even indices, scxvid flags
multiples of three. -/
def fsFlags : ℕ → Frame := fun n =>
  ⟨some 1, some 1, if n % 2 = 0 then 1 else 0, if n % 3 = 0 then 1 else 0⟩

/-- The spec-section-8 failure scenario transcribed to 10 frames with window
3: indices complete in order, the future for index 5 resolves to an error. -/
def c2evs : List REvent :=
  [.ok 0, .ok 1, .ok 2, .ok 3, .ok 4, .err 5, .ok 6, .ok 7, .ok 8, .ok 9]

/-! ### The flush invariant

`FlushInv fs hasOut hasTc p s` relates the state to the list `p` of indices
whose futures have completed successfully so far.  It carries everything the
flush loop touches; the scheduler bookkeeping is layered on top in `Inv`. -/

structure FlushInv (fs : ℕ → Frame) (hasOut hasTc : Bool)
    (p : List ℕ) (s : RenderState) : Prop where
  hOut : s.hasOutfile = hasOut
  hRmem : ∀ k, k < s.framesRendered → k ∈ p
  hBuf : ∀ k, lookupFr k s.buffer =
    if k ∈ p ∧ s.framesRendered ≤ k then some (fs k) else none
  hKeys : (s.buffer.map Prod.fst).Nodup
  hCb : s.cbFrames = (List.range s.framesRendered).map (fun k => (k, fs k))
  hOutW : s.outWrites = if hasOut then List.range s.framesRendered else []
  hBadIff : s.badTimecodes = true ↔ ∃ k, k < s.framesRendered ∧ missingDur (fs k) = true
  hDiag0 : s.badTimecodes = false → s.diagnostics = 0
  hDiag1 : s.badTimecodes = true → s.diagnostics = 1
  hTcGood : s.badTimecodes = false →
    s.timecodes = (List.range (s.framesRendered + 1)).map (accrTime fs)
  hTcBad : s.badTimecodes = true → s.timecodes = []
  hHandle : s.tcHandleOpen = (hasTc && !s.badTimecodes)
  hFileGood : s.badTimecodes = false →
    s.tcFile = if hasTc then TcLine.header :: (List.range s.framesRendered).map (tcLineFor fs)
               else []
  hFileBad : s.badTimecodes = true → s.tcFile = []

/-- The full invariant of an all-success run: the flush invariant plus cursor
maximality and the scheduler bookkeeping. -/
structure Inv (fs : ℕ → Frame) (N W : ℕ) (hasOut hasTc : Bool)
    (p : List ℕ) (s : RenderState) extends FlushInv fs hasOut hasTc p s : Prop where
  hN : s.numFrames = N
  hW : s.windowW = W
  hCursor : s.framesRendered ∉ p
  hQueued : s.queued = max W (min (W + p.length) N)
  hReq : s.requests = List.range (min N W) ++ List.range' W (s.queued - W)
  hCompl : s.completions = p

/-! ### Theory of the binary64 rounding model -/

theorem log2fuel_spec : ∀ (fuel n : ℕ), 1 ≤ n → n ≤ fuel →
    2 ^ log2fuel fuel n ≤ n ∧ n < 2 ^ (log2fuel fuel n + 1) := by
  intro fuel
  induction fuel with
  | zero => intro n h1 h2; omega
  | succ fuel ih =>
    intro n h1 h2
    by_cases h : 2 ≤ n
    · obtain ⟨ha, hb⟩ := ih (n / 2) (by omega) (by omega)
      simp only [log2fuel, if_pos h]
      have e1 : 2 ^ (log2fuel fuel (n / 2) + 1) = 2 * 2 ^ (log2fuel fuel (n / 2)) := by
        rw [pow_succ]; ring
      have e2 : 2 ^ (log2fuel fuel (n / 2) + 1 + 1) = 4 * 2 ^ (log2fuel fuel (n / 2)) := by
        rw [pow_succ, pow_succ]; ring
      omega
    · have hn1 : n = 1 := by omega
      subst hn1
      simp [log2fuel]

theorem nlog2_spec (n : ℕ) (h : 1 ≤ n) :
    2 ^ nlog2 n ≤ n ∧ n < 2 ^ (nlog2 n + 1) :=
  log2fuel_spec n n h le_rfl

theorem pow2_eq_zpow (e : ℤ) : pow2 e = (2 : ℚ) ^ e := by
  unfold pow2
  split_ifs with h
  · have h1 : ((2 ^ e.toNat : ℕ) : ℚ) = (2 : ℚ) ^ e.toNat := by push_cast; ring
    rw [h1, ← zpow_natCast, Int.toNat_of_nonneg h]
  · have h1 : ((2 ^ (-e).toNat : ℕ) : ℚ) = (2 : ℚ) ^ (-e).toNat := by push_cast; ring
    rw [h1, ← zpow_natCast, Int.toNat_of_nonneg (by omega : (0 : ℤ) ≤ -e), ← zpow_neg]
    norm_num

theorem pow2_pos (e : ℤ) : 0 < pow2 e := by
  rw [pow2_eq_zpow]; exact zpow_pos (by norm_num) e

theorem pow2_ne_zero (e : ℤ) : pow2 e ≠ 0 := ne_of_gt (pow2_pos e)

theorem pow2_add (a b : ℤ) : pow2 (a + b) = pow2 a * pow2 b := by
  rw [pow2_eq_zpow, pow2_eq_zpow, pow2_eq_zpow]
  exact zpow_add₀ (by norm_num) a b

theorem pow2_sub (a b : ℤ) : pow2 (a - b) = pow2 a / pow2 b := by
  rw [pow2_eq_zpow, pow2_eq_zpow, pow2_eq_zpow]
  exact zpow_sub₀ (by norm_num) a b

theorem pow2_ofNat (n : ℕ) : pow2 (n : ℤ) = ((2 ^ n : ℕ) : ℚ) := by
  rw [pow2_eq_zpow, zpow_natCast]; push_cast; ring

theorem pow2_le_pow2 {a b : ℤ} (h : a ≤ b) : pow2 a ≤ pow2 b := by
  rw [pow2_eq_zpow, pow2_eq_zpow]
  exact zpow_le_zpow_right₀ one_le_two h

theorem pow2_lt_pow2_iff {a b : ℤ} : pow2 a < pow2 b ↔ a < b := by
  rw [pow2_eq_zpow, pow2_eq_zpow]
  exact (zpow_right_strictMono₀ one_lt_two).lt_iff_lt

theorem flog2_spec (x : ℚ) (hx : 0 < x) :
    pow2 (flog2 x) ≤ x ∧ x < pow2 (flog2 x + 1) := by
  have hnum : 0 < x.num := Rat.num_pos.mpr hx
  have hqpos : 0 < x.den := x.pos
  set p := x.num.toNat with hpdef
  set q := x.den with hqdef
  have hp1 : 1 ≤ p := by omega
  set S := nlog2 q + 1 with hSdef
  have hqS : q < 2 ^ S := by rw [hSdef]; exact (nlog2_spec q (by omega)).2
  set M := p * 2 ^ S / q with hMdef
  have hM1 : 1 ≤ M := by
    rw [hMdef, Nat.one_le_div_iff hqpos]
    calc q ≤ 2 ^ S := le_of_lt hqS
    _ ≤ p * 2 ^ S := Nat.le_mul_of_pos_left _ (by omega)
  obtain ⟨hL1, hL2⟩ := nlog2_spec M hM1
  set L := nlog2 M with hLdef
  have hlow : 2 ^ L * q ≤ p * 2 ^ S := by
    calc 2 ^ L * q ≤ M * q := Nat.mul_le_mul_right q hL1
    _ ≤ p * 2 ^ S := by rw [hMdef]; exact Nat.div_mul_le_self _ _
  have hhigh : p * 2 ^ S < 2 ^ (L + 1) * q := by
    have h1 : p * 2 ^ S < (M + 1) * q := by
      rw [hMdef]
      calc p * 2 ^ S = q * (p * 2 ^ S / q) + p * 2 ^ S % q := (Nat.div_add_mod _ _).symm
      _ < q * (p * 2 ^ S / q) + q := Nat.add_lt_add_left (Nat.mod_lt _ hqpos) _
      _ = (p * 2 ^ S / q + 1) * q := by ring
    exact lt_of_lt_of_le h1 (Nat.mul_le_mul_right q (by omega))
  have hxpq : x = (p : ℚ) / (q : ℚ) := by
    rw [hpdef, hqdef]
    have h0 : ((x.num.toNat : ℤ) : ℚ) = ((x.num : ℤ) : ℚ) := by
      rw [Int.toNat_of_nonneg (le_of_lt hnum)]
    have h1 : ((x.num.toNat : ℕ) : ℚ) = ((x.num : ℤ) : ℚ) := by
      rw [← h0]; push_cast; ring
    rw [h1, Rat.num_div_den]
  have hflog : flog2 x = (L : ℤ) - (S : ℤ) := by
    rw [hLdef, hMdef, hSdef, hpdef, hqdef]; rfl
  have hqQ : (0 : ℚ) < (q : ℚ) := by exact_mod_cast hqpos
  have hSQ : (0 : ℚ) < ((2 ^ S : ℕ) : ℚ) := by positivity
  have hxq : x * (q : ℚ) = (p : ℚ) := by
    rw [hxpq]; field_simp
  have hlowQ : ((2 ^ L : ℕ) : ℚ) * (q : ℚ) ≤ (p : ℚ) * ((2 ^ S : ℕ) : ℚ) := by
    exact_mod_cast hlow
  have hhighQ : (p : ℚ) * ((2 ^ S : ℕ) : ℚ) < ((2 ^ (L + 1) : ℕ) : ℚ) * (q : ℚ) := by
    exact_mod_cast hhigh
  constructor
  · rw [hflog, pow2_sub, pow2_ofNat, pow2_ofNat, div_le_iff hSQ, ← mul_le_mul_right hqQ]
    calc ((2 ^ L : ℕ) : ℚ) * (q : ℚ) ≤ (p : ℚ) * ((2 ^ S : ℕ) : ℚ) := hlowQ
    _ = x * ((2 ^ S : ℕ) : ℚ) * (q : ℚ) := by rw [← hxq]; ring
  · have hstep : (L : ℤ) - (S : ℤ) + 1 = ((L + 1 : ℕ) : ℤ) - (S : ℤ) := by push_cast; ring
    rw [hflog, hstep, pow2_sub, pow2_ofNat, pow2_ofNat, lt_div_iff hSQ,
      ← mul_lt_mul_right hqQ]
    calc x * ((2 ^ S : ℕ) : ℚ) * (q : ℚ) = (p : ℚ) * ((2 ^ S : ℕ) : ℚ) := by
          rw [← hxq]; ring
    _ < ((2 ^ (L + 1) : ℕ) : ℚ) * (q : ℚ) := hhighQ

theorem flog2_eq_of {x : ℚ} {e : ℤ} (h1 : pow2 e ≤ x) (h2 : x < pow2 (e + 1)) :
    flog2 x = e := by
  have hx : 0 < x := lt_of_lt_of_le (pow2_pos e) h1
  obtain ⟨g1, g2⟩ := flog2_spec x hx
  have a1 : pow2 e < pow2 (flog2 x + 1) := lt_of_le_of_lt h1 g2
  have a2 : pow2 (flog2 x) < pow2 (e + 1) := lt_of_le_of_lt g1 h2
  rw [pow2_lt_pow2_iff] at a1 a2
  omega

theorem floor_le_rne (z : ℚ) : ⌊z⌋ ≤ rne z := by
  unfold rne; split_ifs <;> omega

theorem rne_le_floor_add_one (z : ℚ) : rne z ≤ ⌊z⌋ + 1 := by
  unfold rne; split_ifs <;> omega

theorem rne_intCast (m : ℤ) : rne ((m : ℤ) : ℚ) = m := by
  unfold rne
  rw [Int.floor_intCast]
  simp

theorem rne_mono {z w : ℚ} (h : z ≤ w) : rne z ≤ rne w := by
  rcases lt_or_ge ⌊z⌋ ⌊w⌋ with hf | hf
  · calc rne z ≤ ⌊z⌋ + 1 := rne_le_floor_add_one z
    _ ≤ ⌊w⌋ := by omega
    _ ≤ rne w := floor_le_rne w
  · have hf2 : ⌊z⌋ ≤ ⌊w⌋ := Int.floor_le_floor h
    have hfe : ⌊z⌋ = ⌊w⌋ := le_antisymm hf2 hf
    have hfr : z - ⌊z⌋ ≤ w - ⌊w⌋ := by rw [← hfe]; linarith
    unfold rne
    rw [← hfe]
    split_ifs <;> first | omega | linarith

/-- Key representability bounds: for positive `x` the scaled significand
`x / pow2 (flog2 x - 52)` lies in `[2^52, 2^53)`. -/
theorem significand_bounds (x : ℚ) (hx : 0 < x) :
    ((2 ^ 52 : ℕ) : ℚ) ≤ x / pow2 (flog2 x - 52) ∧
      x / pow2 (flog2 x - 52) < ((2 ^ 53 : ℕ) : ℚ) := by
  obtain ⟨g1, g2⟩ := flog2_spec x hx
  have hsplit : pow2 (flog2 x) = pow2 (flog2 x - 52) * ((2 ^ 52 : ℕ) : ℚ) := by
    rw [← pow2_ofNat, ← pow2_add]
    congr 1
    omega
  have hsplit2 : pow2 (flog2 x + 1) = pow2 (flog2 x - 52) * ((2 ^ 53 : ℕ) : ℚ) := by
    rw [← pow2_ofNat, ← pow2_add]
    congr 1
    omega
  have hpos := pow2_pos (flog2 x - 52)
  constructor
  · rw [le_div_iff hpos]
    calc ((2 ^ 52 : ℕ) : ℚ) * pow2 (flog2 x - 52) = pow2 (flog2 x) := by
          rw [hsplit]; ring
    _ ≤ x := g1
  · rw [div_lt_iff hpos]
    calc x < pow2 (flog2 x + 1) := g2
    _ = ((2 ^ 53 : ℕ) : ℚ) * pow2 (flog2 x - 52) := by rw [hsplit2]; ring

theorem rne_significand_bounds (x : ℚ) (hx : 0 < x) :
    (2 ^ 52 : ℤ) ≤ rne (x / pow2 (flog2 x - 52)) ∧
      rne (x / pow2 (flog2 x - 52)) ≤ 2 ^ 53 := by
  obtain ⟨b1, b2⟩ := significand_bounds x hx
  constructor
  · have hfl : (2 ^ 52 : ℤ) ≤ ⌊x / pow2 (flog2 x - 52)⌋ := by
      rw [Int.le_floor]
      exact_mod_cast b1
    exact le_trans hfl (floor_le_rne _)
  · have hfl : ⌊x / pow2 (flog2 x - 52)⌋ < 2 ^ 53 := by
      rw [Int.floor_lt]
      exact_mod_cast b2
    have := rne_le_floor_add_one (x / pow2 (flog2 x - 52))
    omega

theorem flPos_frepr (x : ℚ) (hx : 0 < x) :
    ∃ (m : ℕ) (e : ℤ), flPos x = (m : ℚ) * pow2 e ∧ 2 ^ 52 ≤ m ∧ m < 2 ^ 53 := by
  obtain ⟨r1, r2⟩ := rne_significand_bounds x hx
  have hnn : (0 : ℤ) ≤ rne (x / pow2 (flog2 x - 52)) := by omega
  rcases lt_or_eq_of_le r2 with hlt | heq
  · refine ⟨(rne (x / pow2 (flog2 x - 52))).toNat, flog2 x - 52, ?_, by omega, by omega⟩
    unfold flPos
    have h0 : ((rne (x / pow2 (flog2 x - 52))).toNat : ℤ) =
        rne (x / pow2 (flog2 x - 52)) := Int.toNat_of_nonneg hnn
    have hcast : (((rne (x / pow2 (flog2 x - 52))).toNat : ℕ) : ℚ) =
        ((rne (x / pow2 (flog2 x - 52)) : ℤ) : ℚ) := by
      exact_mod_cast congrArg (fun z : ℤ => (z : ℚ)) h0
    rw [hcast]
  · refine ⟨2 ^ 52, flog2 x - 52 + 1, ?_, le_rfl, by norm_num⟩
    unfold flPos
    have hsplit : pow2 (flog2 x - 52 + 1) = pow2 (flog2 x - 52) * 2 := by
      have h1 : pow2 (1 : ℤ) = ((2 ^ 1 : ℕ) : ℚ) := pow2_ofNat 1
      rw [pow2_add, h1]
      norm_num
    have h53 : ((rne (x / pow2 (flog2 x - 52)) : ℤ) : ℚ) = ((2 ^ 53 : ℤ) : ℚ) := by
      exact_mod_cast congrArg (fun z : ℤ => (z : ℚ)) heq
    rw [hsplit, h53]
    push_cast
    ring

theorem fl_frepr {x : ℚ} (hx : 0 ≤ x) : FRepr (fl x) := by
  rcases eq_or_lt_of_le hx with h0 | hpos
  · left
    rw [fl, if_pos h0.symm]
  · right
    rw [fl, if_neg (ne_of_gt hpos), if_pos hpos]
    exact flPos_frepr x hpos

theorem frepr_fl {x : ℚ} (h : FRepr x) : fl x = x := by
  rcases h with h0 | ⟨m, e, hxe, hm1, hm2⟩
  · rw [h0, fl, if_pos rfl]
  · have hmpos : 0 < m := lt_of_lt_of_le (by norm_num) hm1
    have hx : 0 < x := by
      rw [hxe]
      have := pow2_pos e
      positivity
    have hflog : flog2 x = e + 52 := by
      apply flog2_eq_of
      · have hsplit : pow2 (e + 52) = ((2 ^ 52 : ℕ) : ℚ) * pow2 e := by
          rw [← pow2_ofNat, ← pow2_add]
          congr 1
          omega
        rw [hxe, hsplit]
        have hm : ((2 ^ 52 : ℕ) : ℚ) ≤ (m : ℚ) := by exact_mod_cast hm1
        exact mul_le_mul_of_nonneg_right hm (pow2_pos e).le
      · have hsplit : pow2 (e + 52 + 1) = ((2 ^ 53 : ℕ) : ℚ) * pow2 e := by
          rw [← pow2_ofNat, ← pow2_add]
          congr 1
          omega
        rw [hxe, hsplit]
        have hm : (m : ℚ) < ((2 ^ 53 : ℕ) : ℚ) := by exact_mod_cast hm2
        exact mul_lt_mul_of_pos_right hm (pow2_pos e)
    rw [fl, if_neg (ne_of_gt hx), if_pos hx]
    unfold flPos
    rw [hflog, show e + 52 - 52 = e by ring, hxe, mul_div_assoc,
      div_self (pow2_ne_zero e), mul_one,
      show ((m : ℚ)) = ((m : ℤ) : ℚ) by push_cast; ring, rne_intCast]

theorem fl_nonneg {x : ℚ} (hx : 0 ≤ x) : 0 ≤ fl x := by
  rcases eq_or_lt_of_le hx with h0 | hpos
  · rw [fl, if_pos h0.symm]
  · rw [fl, if_neg (ne_of_gt hpos), if_pos hpos]
    obtain ⟨m, e, hxe, hm1, _⟩ := flPos_frepr x hpos
    rw [hxe]
    exact mul_nonneg (by positivity) (pow2_pos e).le

theorem flPos_lower (x : ℚ) (hx : 0 < x) : pow2 (flog2 x) ≤ flPos x := by
  obtain ⟨r1, _⟩ := rne_significand_bounds x hx
  have hsplit : pow2 (flog2 x) = ((2 ^ 52 : ℕ) : ℚ) * pow2 (flog2 x - 52) := by
    rw [← pow2_ofNat, ← pow2_add]
    congr 1
    omega
  unfold flPos
  rw [hsplit]
  have r1Q : ((2 ^ 52 : ℕ) : ℚ) ≤ ((rne (x / pow2 (flog2 x - 52)) : ℤ) : ℚ) := by
    exact_mod_cast r1
  exact mul_le_mul_of_nonneg_right r1Q (pow2_pos _).le

theorem flPos_upper (x : ℚ) (hx : 0 < x) : flPos x ≤ pow2 (flog2 x + 1) := by
  obtain ⟨_, r2⟩ := rne_significand_bounds x hx
  have hsplit : pow2 (flog2 x + 1) = ((2 ^ 53 : ℕ) : ℚ) * pow2 (flog2 x - 52) := by
    rw [← pow2_ofNat, ← pow2_add]
    congr 1
    omega
  unfold flPos
  rw [hsplit]
  have r2Q : ((rne (x / pow2 (flog2 x - 52)) : ℤ) : ℚ) ≤ ((2 ^ 53 : ℕ) : ℚ) := by
    exact_mod_cast r2
  exact mul_le_mul_of_nonneg_right r2Q (pow2_pos _).le

theorem fl_mono {x y : ℚ} (hx : 0 ≤ x) (hxy : x ≤ y) : fl x ≤ fl y := by
  rcases eq_or_lt_of_le hx with h0 | hxpos
  · rw [fl, if_pos h0.symm]
    exact fl_nonneg (le_trans hx hxy)
  · have hypos : 0 < y := lt_of_lt_of_le hxpos hxy
    rw [fl, if_neg (ne_of_gt hxpos), if_pos hxpos,
      fl, if_neg (ne_of_gt hypos), if_pos hypos]
    have hle : flog2 x ≤ flog2 y := by
      obtain ⟨gx1, gx2⟩ := flog2_spec x hxpos
      obtain ⟨gy1, gy2⟩ := flog2_spec y hypos
      have h1 : pow2 (flog2 x) < pow2 (flog2 y + 1) :=
        lt_of_le_of_lt (le_trans gx1 hxy) gy2
      rw [pow2_lt_pow2_iff] at h1
      omega
    rcases eq_or_lt_of_le hle with heq | hlt
    · unfold flPos
      rw [← heq]
      have hdiv : x / pow2 (flog2 x - 52) ≤ y / pow2 (flog2 x - 52) :=
        (div_le_div_right (pow2_pos _)).mpr hxy
      have hrne : ((rne (x / pow2 (flog2 x - 52)) : ℤ) : ℚ) ≤
          ((rne (y / pow2 (flog2 x - 52)) : ℤ) : ℚ) := by
        exact_mod_cast rne_mono hdiv
      exact mul_le_mul_of_nonneg_right hrne (pow2_pos _).le
    · calc flPos x ≤ pow2 (flog2 x + 1) := flPos_upper x hxpos
      _ ≤ pow2 (flog2 y) := pow2_le_pow2 (by omega)
      _ ≤ flPos y := flPos_lower y hypos

/-! ### Dictionary and list helpers -/

theorem eraseFr_sublist (n : ℕ) (l : List (ℕ × Frame)) : (eraseFr n l).Sublist l := by
  induction l with
  | nil => simp [eraseFr]
  | cons kv rest ih =>
    by_cases h : kv.1 = n
    · simp only [eraseFr, if_pos h]
      exact List.sublist_cons_self kv rest
    · simp only [eraseFr, if_neg h]
      exact ih.cons₂ kv

theorem keys_eraseFr_nodup (n : ℕ) {l : List (ℕ × Frame)}
    (h : (l.map Prod.fst).Nodup) : ((eraseFr n l).map Prod.fst).Nodup :=
  h.sublist ((eraseFr_sublist n l).map Prod.fst)

theorem lookupFr_isSome_iff_mem (n : ℕ) (l : List (ℕ × Frame)) :
    (lookupFr n l).isSome = true ↔ n ∈ l.map Prod.fst := by
  induction l with
  | nil => simp [lookupFr]
  | cons kv rest ih =>
    by_cases h : kv.1 = n
    · simp [lookupFr, h]
    · simp only [lookupFr, if_neg h, List.map_cons, List.mem_cons]
      rw [ih]
      constructor
      · exact fun hm => Or.inr hm
      · rintro (hm | hm)
        · exact absurd hm.symm h
        · exact hm

theorem lookupFr_eraseFr_self {n : ℕ} {l : List (ℕ × Frame)}
    (h : (l.map Prod.fst).Nodup) : lookupFr n (eraseFr n l) = none := by
  induction l with
  | nil => simp [eraseFr, lookupFr]
  | cons kv rest ih =>
    simp only [List.map_cons, List.nodup_cons] at h
    by_cases hk : kv.1 = n
    · simp only [eraseFr, if_pos hk]
      cases hl : lookupFr n rest with
      | none => rfl
      | some f =>
        exfalso
        have : n ∈ rest.map Prod.fst := (lookupFr_isSome_iff_mem n rest).mp (by simp [hl])
        rw [hk] at h
        exact h.1 this
    · simp only [eraseFr, if_neg hk, lookupFr, if_neg hk]
      exact ih h.2

theorem lookupFr_eraseFr_ne {k n : ℕ} (l : List (ℕ × Frame)) (h : k ≠ n) :
    lookupFr k (eraseFr n l) = lookupFr k l := by
  induction l with
  | nil => rfl
  | cons kv rest ih =>
    by_cases hk : kv.1 = n
    · rw [eraseFr, if_pos hk, lookupFr, if_neg (by omega : ¬ kv.1 = k)]
    · rw [eraseFr, if_neg hk]
      by_cases hk2 : kv.1 = k
      · rw [lookupFr, if_pos hk2, lookupFr, if_pos hk2]
      · rw [lookupFr, if_neg hk2, lookupFr, if_neg hk2]
        exact ih

theorem length_eraseFr_of_lookup {n : ℕ} {l : List (ℕ × Frame)} {f : Frame}
    (h : lookupFr n l = some f) : (eraseFr n l).length + 1 = l.length := by
  induction l with
  | nil => simp [lookupFr] at h
  | cons kv rest ih =>
    by_cases hk : kv.1 = n
    · rw [eraseFr, if_pos hk]
      rfl
    · rw [lookupFr, if_neg hk] at h
      rw [eraseFr, if_neg hk, List.length_cons, List.length_cons, ih h]

theorem lookupFr_insertFr (n k : ℕ) (f : Frame) (l : List (ℕ × Frame)) :
    lookupFr k (insertFr n f l) = if k = n then some f else lookupFr k l := by
  by_cases h : k = n
  · rw [if_pos h, insertFr, lookupFr, if_pos h.symm]
  · rw [if_neg h, insertFr, lookupFr, if_neg (by omega : ¬ n = k)]
    exact lookupFr_eraseFr_ne l h

theorem keys_insertFr_nodup (n : ℕ) (f : Frame) {l : List (ℕ × Frame)}
    (h : (l.map Prod.fst).Nodup) : ((insertFr n f l).map Prod.fst).Nodup := by
  rw [insertFr, List.map_cons, List.nodup_cons]
  refine ⟨?_, keys_eraseFr_nodup n h⟩
  intro hmem
  have := (lookupFr_isSome_iff_mem n (eraseFr n l)).mpr hmem
  rw [lookupFr_eraseFr_self h] at this
  simp at this

theorem getLastD_map_range {α : Type} (f : ℕ → α) (n : ℕ) (d : α) :
    ((List.range (n + 1)).map f).getLastD d = f n := by
  rw [List.range_succ, List.map_append]
  simp

theorem getD_map_range {α : Type} (f : ℕ → α) {m n : ℕ} (d : α) (h : m < n) :
    ((List.range n).map f).getD m d = f m := by
  rw [List.getD_eq_getElem?_getD, List.getElem?_map, List.getElem?_range h]
  rfl

theorem runEvents_append (fs : ℕ → Frame) (s : RenderState) (l1 l2 : List REvent) :
    runEvents fs s (l1 ++ l2) = runEvents fs (runEvents fs s l1) l2 := by
  induction l1 generalizing s with
  | nil => rfl
  | cons e rest ih => rw [List.cons_append, runEvents, runEvents, ih]

/-! ### Fields untouched by the flush machinery -/

theorem flushOne_const (s : RenderState) (f : Frame) :
    (flushOne s f).numFrames = s.numFrames ∧ (flushOne s f).windowW = s.windowW ∧
    (flushOne s f).hasOutfile = s.hasOutfile ∧ (flushOne s f).queued = s.queued ∧
    (flushOne s f).requests = s.requests ∧ (flushOne s f).completions = s.completions ∧
    (flushOne s f).swallowed = s.swallowed := by
  unfold flushOne advance cbDispatch outWrite tcWrite tcUpdate
  split_ifs <;> exact ⟨rfl, rfl, rfl, rfl, rfl, rfl, rfl⟩

theorem flushLoop_const : ∀ (fuel : ℕ) (s : RenderState),
    (flushLoop fuel s).numFrames = s.numFrames ∧
    (flushLoop fuel s).windowW = s.windowW ∧
    (flushLoop fuel s).hasOutfile = s.hasOutfile ∧
    (flushLoop fuel s).queued = s.queued ∧
    (flushLoop fuel s).requests = s.requests ∧
    (flushLoop fuel s).completions = s.completions ∧
    (flushLoop fuel s).swallowed = s.swallowed := by
  intro fuel
  induction fuel with
  | zero => exact fun s => ⟨rfl, rfl, rfl, rfl, rfl, rfl, rfl⟩
  | succ fuel ih =>
    intro s
    rw [flushLoop]
    cases hlk : lookupFr s.framesRendered s.buffer with
    | none => exact ⟨rfl, rfl, rfl, rfl, rfl, rfl, rfl⟩
    | some f =>
      obtain ⟨a1, a2, a3, a4, a5, a6, a7⟩ := ih (flushOne s f)
      obtain ⟨b1, b2, b3, b4, b5, b6, b7⟩ := flushOne_const s f
      exact ⟨a1.trans b1, a2.trans b2, a3.trans b3, a4.trans b4,
        a5.trans b5, a6.trans b6, a7.trans b7⟩

/-- A definitional reshaping of `stepOk` convenient for the scheduler
bookkeeping proofs. -/
theorem stepOk_def (fs : ℕ → Frame) (s : RenderState) (n : ℕ) : stepOk fs s n =
    (let s2 := flushLoop (insertFr n (fs n) s.buffer).length
        { s with buffer := insertFr n (fs n) s.buffer,
                 completions := s.completions ++ [n] };
     if s.queued < s2.numFrames then
       { s2 with queued := s2.queued + 1, requests := s2.requests ++ [s.queued] }
     else s2) := rfl

theorem stepOk_sched (fs : ℕ → Frame) (s : RenderState) (n : ℕ) :
    (stepOk fs s n).numFrames = s.numFrames ∧
    (stepOk fs s n).windowW = s.windowW ∧
    (stepOk fs s n).hasOutfile = s.hasOutfile ∧
    (stepOk fs s n).completions = s.completions ++ [n] ∧
    (stepOk fs s n).swallowed = s.swallowed ∧
    ((s.queued < s.numFrames →
        (stepOk fs s n).queued = s.queued + 1 ∧
        (stepOk fs s n).requests = s.requests ++ [s.queued]) ∧
      (¬ s.queued < s.numFrames →
        (stepOk fs s n).queued = s.queued ∧
        (stepOk fs s n).requests = s.requests)) := by
  obtain ⟨c1, c2, c3, c4, c5, c6, c7⟩ := flushLoop_const
    (insertFr n (fs n) s.buffer).length
    { s with buffer := insertFr n (fs n) s.buffer, completions := s.completions ++ [n] }
  rw [stepOk_def]
  by_cases h : s.queued < s.numFrames
  · rw [if_pos (by rw [c1]; exact h)]
    exact ⟨c1, c2, c3, by rw [c6], c7, fun _ => ⟨by rw [c4], by rw [c5]⟩,
      fun hc => absurd h hc⟩
  · rw [if_neg (by rw [c1]; exact h)]
    exact ⟨c1, c2, c3, by rw [c6], c7, fun hc => absurd hc h,
      fun _ => ⟨c4, c5⟩⟩


/-! ### Per-branch projections of the flush body -/

theorem map_range_succ {α : Type} (f : ℕ → α) (n : ℕ) :
    (List.range (n + 1)).map f = (List.range n).map f ++ [f n] := by
  rw [List.range_succ n, List.map_append]
  rfl

theorem flushOne_proj (s : RenderState) (f : Frame) :
    (flushOne s f).buffer = eraseFr s.framesRendered s.buffer ∧
    (flushOne s f).framesRendered = s.framesRendered + 1 ∧
    (flushOne s f).cbFrames = s.cbFrames ++ [(s.framesRendered, f)] ∧
    (flushOne s f).outWrites =
      (if s.hasOutfile = true then s.outWrites ++ [s.framesRendered] else s.outWrites) := by
  unfold flushOne advance cbDispatch outWrite tcWrite tcUpdate
  split_ifs <;> exact ⟨rfl, rfl, rfl, rfl⟩

theorem flushOne_tc_bad {s : RenderState} (f : Frame)
    (hbad : s.badTimecodes = true) (hh : s.tcHandleOpen = false) :
    (flushOne s f).badTimecodes = true ∧
    (flushOne s f).timecodes = s.timecodes ∧
    (flushOne s f).tcHandleOpen = s.tcHandleOpen ∧
    (flushOne s f).tcFile = s.tcFile ∧
    (flushOne s f).diagnostics = s.diagnostics := by
  unfold flushOne advance cbDispatch outWrite tcWrite tcUpdate
  split_ifs <;> simp_all

theorem flushOne_tc_trigger {s : RenderState} {f : Frame}
    (hmiss : missingDur f = true) (hbad : s.badTimecodes = false) :
    (flushOne s f).badTimecodes = true ∧
    (flushOne s f).timecodes = [] ∧
    (flushOne s f).tcHandleOpen = false ∧
    (flushOne s f).tcFile = [] ∧
    (flushOne s f).diagnostics = s.diagnostics + 1 := by
  unfold flushOne advance cbDispatch outWrite tcWrite tcUpdate
  split_ifs <;> simp_all

theorem flushOne_tc_good {s : RenderState} {f : Frame}
    (hmiss : missingDur f = false) (hbad : s.badTimecodes = false) :
    (flushOne s f).badTimecodes = false ∧
    (flushOne s f).timecodes = s.timecodes ++ [fl (s.timecodes.getLastD 0 + durFl f)] ∧
    (flushOne s f).tcHandleOpen = s.tcHandleOpen ∧
    (flushOne s f).diagnostics = s.diagnostics ∧
    (flushOne s f).tcFile =
      (if s.tcHandleOpen = true then
        s.tcFile ++ [TcLine.data (rne (fl
          ((s.timecodes ++ [fl (s.timecodes.getLastD 0 + durFl f)]).getD
            s.framesRendered 0 * 1000)))]
      else s.tcFile) := by
  unfold flushOne advance cbDispatch outWrite tcWrite tcUpdate
  split_ifs <;> simp_all

/-! ### Preservation of the flush invariant -/

theorem flushOne_flushInv {fs : ℕ → Frame} {hasOut hasTc : Bool} {p : List ℕ}
    {s : RenderState} {f : Frame}
    (hI : FlushInv fs hasOut hasTc p s)
    (hl : lookupFr s.framesRendered s.buffer = some f) :
    FlushInv fs hasOut hasTc p (flushOne s f) ∧
    (flushOne s f).buffer.length + 1 = s.buffer.length ∧
    (flushOne s f).framesRendered = s.framesRendered + 1 := by
  obtain ⟨hPbuf, hPr, hPcb, hPout⟩ := flushOne_proj s f
  have hbuf := hI.hBuf s.framesRendered
  rw [hl] at hbuf
  have hrp : s.framesRendered ∈ p := by
    by_contra hc
    rw [if_neg (by tauto)] at hbuf
    exact Option.noConfusion hbuf
  have hf : f = fs s.framesRendered := by
    rw [if_pos ⟨hrp, le_refl _⟩] at hbuf
    exact Option.some.inj hbuf
  have hlen : (flushOne s f).buffer.length + 1 = s.buffer.length := by
    rw [hPbuf]
    exact length_eraseFr_of_lookup hl
  have hOut2 : (flushOne s f).hasOutfile = hasOut := by
    obtain ⟨_, _, h3, _⟩ := flushOne_const s f
    rw [h3, hI.hOut]
  have hRmem2 : ∀ k, k < (flushOne s f).framesRendered → k ∈ p := by
    intro k hk
    rw [hPr] at hk
    rcases Nat.lt_succ_iff_lt_or_eq.mp hk with h | h
    · exact hI.hRmem k h
    · rw [h]; exact hrp
  have hBuf2 : ∀ k, lookupFr k (flushOne s f).buffer =
      if k ∈ p ∧ (flushOne s f).framesRendered ≤ k then some (fs k) else none := by
    intro k
    rw [hPbuf, hPr]
    by_cases hk : k = s.framesRendered
    · rw [hk, lookupFr_eraseFr_self hI.hKeys, if_neg (by omega)]
    · rw [lookupFr_eraseFr_ne s.buffer hk, hI.hBuf k]
      by_cases hkp : k ∈ p
      · by_cases hkr : s.framesRendered ≤ k
        · rw [if_pos ⟨hkp, hkr⟩, if_pos ⟨hkp, by omega⟩]
        · rw [if_neg (by tauto), if_neg (by omega)]
      · rw [if_neg (by tauto), if_neg (by tauto)]
  have hKeys2 : ((flushOne s f).buffer.map Prod.fst).Nodup := by
    rw [hPbuf]
    exact keys_eraseFr_nodup _ hI.hKeys
  have hCb2 : (flushOne s f).cbFrames =
      (List.range (flushOne s f).framesRendered).map (fun k => (k, fs k)) := by
    rw [hPcb, hPr, hI.hCb, hf, map_range_succ]
  have hOutW2 : (flushOne s f).outWrites =
      (if hasOut then List.range (flushOne s f).framesRendered else []) := by
    rw [hPout, hPr, hI.hOut, hI.hOutW]
    cases hasOut with
    | false => simp
    | true => simp [map_range_succ, List.range_succ]
  cases hbadc : s.badTimecodes with
  | true =>
    have hh : s.tcHandleOpen = false := by
      rw [hI.hHandle, hbadc]
      simp
    obtain ⟨b1, b2, b3, b4, b5⟩ := flushOne_tc_bad f hbadc hh
    refine ⟨⟨hOut2, hRmem2, hBuf2, hKeys2, hCb2, hOutW2, ?_, ?_, ?_, ?_, ?_, ?_, ?_, ?_⟩,
      hlen, hPr⟩
    · rw [b1]
      simp only [true_iff]
      obtain ⟨k, hk, hm⟩ := hI.hBadIff.mp hbadc
      exact ⟨k, by omega, hm⟩
    · intro h
      rw [b1] at h
      exact absurd h (by simp)
    · intro _
      rw [b5]
      exact hI.hDiag1 hbadc
    · intro h
      rw [b1] at h
      exact absurd h (by simp)
    · intro _
      rw [b2]
      exact hI.hTcBad hbadc
    · rw [b3, b1, hh]
      simp
    · intro h
      rw [b1] at h
      exact absurd h (by simp)
    · intro _
      rw [b4]
      exact hI.hFileBad hbadc
  | false =>
    cases hmissc : missingDur f with
    | true =>
      obtain ⟨t1, t2, t3, t4, t5⟩ := flushOne_tc_trigger hmissc hbadc
      refine ⟨⟨hOut2, hRmem2, hBuf2, hKeys2, hCb2, hOutW2, ?_, ?_, ?_, ?_, ?_, ?_, ?_, ?_⟩,
        hlen, hPr⟩
      · rw [t1, hPr]
        simp only [true_iff]
        exact ⟨s.framesRendered, by omega, by rw [← hf]; exact hmissc⟩
      · intro h
        rw [t1] at h
        exact absurd h (by simp)
      · intro _
        rw [t5, hI.hDiag0 hbadc]
      · intro h
        rw [t1] at h
        exact absurd h (by simp)
      · intro _
        exact t2
      · rw [t3, t1]
        simp
      · intro h
        rw [t1] at h
        exact absurd h (by simp)
      · intro _
        exact t4
    | false =>
      obtain ⟨g1, g2, g3, g4, g5⟩ := flushOne_tc_good hmissc hbadc
      have htc1 : s.timecodes ++ [fl (s.timecodes.getLastD 0 + durFl f)] =
          (List.range (s.framesRendered + 1 + 1)).map (accrTime fs) := by
        rw [hI.hTcGood hbadc, getLastD_map_range, hf]
        conv_rhs => rw [map_range_succ]
        rfl
      refine ⟨⟨hOut2, hRmem2, hBuf2, hKeys2, hCb2, hOutW2, ?_, ?_, ?_, ?_, ?_, ?_, ?_, ?_⟩,
        hlen, hPr⟩
      · rw [g1, hPr]
        simp only [Bool.false_eq_true, false_iff]
        rintro ⟨k, hk, hm⟩
        rcases Nat.lt_succ_iff_lt_or_eq.mp hk with h | h
        · have := hI.hBadIff.mpr ⟨k, h, hm⟩
          rw [hbadc] at this
          exact Bool.noConfusion this
        · rw [h, ← hf] at hm
          rw [hmissc] at hm
          exact Bool.noConfusion hm
      · intro _
        rw [g4, hI.hDiag0 hbadc]
      · intro h
        rw [g1] at h
        exact absurd h (by simp)
      · intro _
        rw [g2, hPr, htc1]
      · intro h
        rw [g1] at h
        exact absurd h (by simp)
      · rw [g3, g1, hI.hHandle, hbadc]
      · intro _
        have hhandle : s.tcHandleOpen = hasTc := by
          rw [hI.hHandle, hbadc]
          cases hasTc <;> rfl
        rw [g5, hPr, hhandle]
        cases hasTc with
        | false =>
          simp only [Bool.false_eq_true, if_false]
          rw [hI.hFileGood hbadc]
          simp
        | true =>
          rw [if_pos rfl, hI.hFileGood hbadc, if_pos rfl, htc1,
            getD_map_range _ _ (by omega)]
          rw [show TcLine.data (rne (fl (accrTime fs s.framesRendered * 1000))) =
            tcLineFor fs s.framesRendered from rfl]
          conv_rhs => rw [map_range_succ]
          rfl
      · intro h
        rw [g1] at h
        exact absurd h (by simp)

theorem flushLoop_flushInv {fs : ℕ → Frame} {hasOut hasTc : Bool} {p : List ℕ} :
    ∀ (fuel : ℕ) (s : RenderState), s.buffer.length ≤ fuel →
    FlushInv fs hasOut hasTc p s →
    FlushInv fs hasOut hasTc p (flushLoop fuel s) ∧
    (flushLoop fuel s).framesRendered ∉ p ∧
    s.framesRendered ≤ (flushLoop fuel s).framesRendered := by
  intro fuel
  induction fuel with
  | zero =>
    intro s hlen hI
    have hbuf : s.buffer = [] := List.length_eq_zero.mp (by omega)
    have hlk : lookupFr s.framesRendered s.buffer = none := by rw [hbuf]; rfl
    have hb := hI.hBuf s.framesRendered
    rw [hlk] at hb
    refine ⟨hI, ?_, le_refl _⟩
    intro hmem
    rw [if_pos ⟨hmem, le_refl _⟩] at hb
    exact Option.noConfusion hb
  | succ fuel ih =>
    intro s hlen hI
    cases hlk : lookupFr s.framesRendered s.buffer with
    | none =>
      have hstep : flushLoop (fuel + 1) s = s := by rw [flushLoop, hlk]
      rw [hstep]
      have hb := hI.hBuf s.framesRendered
      rw [hlk] at hb
      refine ⟨hI, ?_, le_refl _⟩
      intro hmem
      rw [if_pos ⟨hmem, le_refl _⟩] at hb
      exact Option.noConfusion hb
    | some f =>
      have hstep : flushLoop (fuel + 1) s = flushLoop fuel (flushOne s f) := by
        rw [flushLoop, hlk]
      obtain ⟨hI2, hlen2, hr2⟩ := flushOne_flushInv hI hlk
      obtain ⟨hI3, hmem3, hr3⟩ := ih (flushOne s f) (by omega) hI2
      rw [hstep]
      exact ⟨hI3, hmem3, by omega⟩

/-! ### Preservation through one completion and through a run -/

theorem flushInv_requests_update {fs : ℕ → Frame} {hasOut hasTc : Bool} {p : List ℕ}
    (s : RenderState) (q : ℕ) (r : List ℕ)
    (hI : FlushInv fs hasOut hasTc p s) :
    FlushInv fs hasOut hasTc p { s with queued := q, requests := r } :=
  ⟨hI.hOut, hI.hRmem, hI.hBuf, hI.hKeys, hI.hCb, hI.hOutW, hI.hBadIff, hI.hDiag0,
    hI.hDiag1, hI.hTcGood, hI.hTcBad, hI.hHandle, hI.hFileGood, hI.hFileBad⟩

theorem stepOk_flushInv {fs : ℕ → Frame} {hasOut hasTc : Bool} {p : List ℕ}
    {s : RenderState} {n : ℕ}
    (hI : FlushInv fs hasOut hasTc p s) (hnp : n ∉ p) :
    FlushInv fs hasOut hasTc (p ++ [n]) (stepOk fs s n) ∧
    (stepOk fs s n).framesRendered ∉ p ++ [n] ∧
    s.framesRendered ≤ (stepOk fs s n).framesRendered := by
  have hrn : s.framesRendered ≤ n := by
    by_contra hc
    push_neg at hc
    exact hnp (hI.hRmem n hc)
  have hI1 : FlushInv fs hasOut hasTc (p ++ [n])
      { s with buffer := insertFr n (fs n) s.buffer,
               completions := s.completions ++ [n] } := by
    refine ⟨hI.hOut, ?_, ?_, ?_, hI.hCb, hI.hOutW, hI.hBadIff, hI.hDiag0, hI.hDiag1,
      hI.hTcGood, hI.hTcBad, hI.hHandle, hI.hFileGood, hI.hFileBad⟩
    · intro k hk
      exact List.mem_append_left _ (hI.hRmem k hk)
    · intro k
      show lookupFr k (insertFr n (fs n) s.buffer) = _
      rw [lookupFr_insertFr]
      by_cases hk : k = n
      · subst hk
        rw [if_pos rfl, if_pos ⟨List.mem_append_right _ (by simp), hrn⟩]
      · rw [if_neg hk, hI.hBuf k]
        by_cases hkp : k ∈ p
        · have hkpn : k ∈ p ++ [n] := List.mem_append_left _ hkp
          by_cases hkr : s.framesRendered ≤ k
          · rw [if_pos ⟨hkp, hkr⟩, if_pos ⟨hkpn, hkr⟩]
          · rw [if_neg (by tauto), if_neg (by tauto)]
        · have hkpn : k ∉ p ++ [n] := by
            simp [List.mem_append, hkp, hk]
          rw [if_neg (by tauto), if_neg (by tauto)]
    · show ((insertFr n (fs n) s.buffer).map Prod.fst).Nodup
      exact keys_insertFr_nodup n (fs n) hI.hKeys
  obtain ⟨hI2, hcur2, hr2⟩ := flushLoop_flushInv _ _ le_rfl hI1
  simp only [stepOk]
  split_ifs with hq
  · exact ⟨flushInv_requests_update _ _ _ hI2, hcur2, hr2⟩
  · exact ⟨hI2, hcur2, hr2⟩

theorem stepOk_inv {fs : ℕ → Frame} {N W : ℕ} {hasOut hasTc : Bool} {p : List ℕ}
    {s : RenderState} {n : ℕ}
    (hI : Inv fs N W hasOut hasTc p s) (hnp : n ∉ p) :
    Inv fs N W hasOut hasTc (p ++ [n]) (stepOk fs s n) := by
  obtain ⟨hF, hcur, _⟩ := stepOk_flushInv hI.toFlushInv hnp
  obtain ⟨s1N, s1W, _, sC, _, hqpos, hqneg⟩ := stepOk_sched fs s n
  have hqlt : s.queued < s.numFrames ↔ max W (min (W + p.length) N) < N := by
    rw [hI.hQueued, hI.hN]
  by_cases hq : s.queued < s.numFrames
  · obtain ⟨hq1, hr1⟩ := hqpos hq
    refine ⟨hF, s1N.trans hI.hN, s1W.trans hI.hW, hcur, ?_, ?_, by rw [sC, hI.hCompl]⟩
    · rw [hq1, hI.hQueued, List.length_append, List.length_singleton]
      have := hqlt.mp hq
      omega
    · rw [hr1, hI.hReq, hq1, hI.hQueued]
      have hWq : W ≤ max W (min (W + p.length) N) := le_max_left _ _
      rw [List.append_assoc]
      congr 1
      have h1 : max W (min (W + p.length) N) + 1 - W =
          (max W (min (W + p.length) N) - W) + 1 := by omega
      rw [h1, List.range'_concat,
        show W + 1 * (max W (min (W + p.length) N) - W) = max W (min (W + p.length) N)
          from by omega]
  · obtain ⟨hq1, hr1⟩ := hqneg hq
    refine ⟨hF, s1N.trans hI.hN, s1W.trans hI.hW, hcur, ?_, ?_, by rw [sC, hI.hCompl]⟩
    · rw [hq1, hI.hQueued, List.length_append, List.length_singleton]
      have hnotlt : ¬ max W (min (W + p.length) N) < N := fun h => hq (hqlt.mpr h)
      omega
    · rw [hr1, hq1]
      exact hI.hReq

theorem init_inv (fs : ℕ → Frame) (N W : ℕ) (hasOut hasTc : Bool) :
    Inv fs N W hasOut hasTc [] (initState N W hasOut hasTc) := by
  refine ⟨⟨rfl, ?_, ?_, ?_, ?_, ?_, ?_, ?_, ?_, ?_, ?_, ?_, ?_, ?_⟩,
    rfl, rfl, ?_, ?_, ?_, rfl⟩
  · intro k hk
    exact absurd hk (Nat.not_lt_zero k)
  · intro k
    rw [if_neg (by simp)]
    rfl
  · simp [initState]
  · rfl
  · cases hasOut <;> rfl
  · simp [initState]
  · intro _
    rfl
  · intro h
    exact absurd h (by simp [initState])
  · intro _
    rfl
  · intro h
    exact absurd h (by simp [initState])
  · cases hasTc <;> rfl
  · intro _
    cases hasTc <;> rfl
  · intro h
    exact absurd h (by simp [initState])
  · simp
  · show W = max W (min (W + ([] : List ℕ).length) N)
    simp only [List.length_nil, Nat.add_zero]
    omega
  · show List.range (min N W) = List.range (min N W) ++ List.range' W (W - W)
    simp

theorem runOk_inv {fs : ℕ → Frame} {N W : ℕ} {hasOut hasTc : Bool} :
    ∀ (arr p : List ℕ) (s : RenderState),
    Inv fs N W hasOut hasTc p s → arr.Nodup → (∀ x ∈ arr, x < N) →
    (∀ x ∈ arr, x ∉ p) →
    Inv fs N W hasOut hasTc (p ++ arr) (runEvents fs s (arr.map REvent.ok)) := by
  intro arr
  induction arr with
  | nil =>
    intro p s hI _ _ _
    simpa using hI
  | cons a rest ih =>
    intro p s hI hnd hbound hdisj
    rw [List.map_cons, runEvents]
    have h1 : Inv fs N W hasOut hasTc (p ++ [a]) (stepOk fs s a) :=
      stepOk_inv hI (hdisj a (by simp))
    have hnd2 : rest.Nodup := (List.nodup_cons.mp hnd).2
    have hna : a ∉ rest := (List.nodup_cons.mp hnd).1
    have h2 := ih (p ++ [a]) (stepOk fs s a) h1 hnd2
      (fun x hx => hbound x (List.mem_cons_of_mem a hx))
      (by
        intro x hx
        simp only [List.mem_append, List.mem_singleton, not_or]
        refine ⟨hdisj x (List.mem_cons_of_mem a hx), ?_⟩
        intro hxa
        rw [hxa] at hx
        exact hna hx)
    rw [List.append_cons]
    exact h2

theorem perm_run_inv {fs : ℕ → Frame} {N W : ℕ} {hasOut hasTc : Bool} {arr : List ℕ}
    (hperm : arr.Perm (List.range N)) :
    Inv fs N W hasOut hasTc arr (runRender fs N W hasOut hasTc (arr.map REvent.ok)) ∧
    (runRender fs N W hasOut hasTc (arr.map REvent.ok)).framesRendered = N := by
  have hnd : arr.Nodup := hperm.nodup_iff.mpr (List.nodup_range N)
  have hmem : ∀ x, x ∈ arr ↔ x < N := fun x => by rw [hperm.mem_iff, List.mem_range]
  have hI := runOk_inv arr [] (initState N W hasOut hasTc)
    (init_inv fs N W hasOut hasTc) hnd (fun x hx => (hmem x).mp hx) (fun x _ => by simp)
  rw [List.nil_append] at hI
  refine ⟨hI, ?_⟩
  have hcur := hI.hCursor
  have hr2 : (runRender fs N W hasOut hasTc (arr.map REvent.ok)).framesRendered ≤ N := by
    by_contra h
    push_neg at h
    have := hI.hRmem N h
    exact absurd ((hmem N).mp this) (lt_irrefl N)
  have hr1 : ¬ (runRender fs N W hasOut hasTc (arr.map REvent.ok)).framesRendered < N :=
    fun h => hcur ((hmem _).mpr h)
  omega

/-! ### The cursor never moves backwards -/

theorem flushLoop_framesRendered_le : ∀ (fuel : ℕ) (s : RenderState),
    s.framesRendered ≤ (flushLoop fuel s).framesRendered := by
  intro fuel
  induction fuel with
  | zero => exact fun s => le_refl _
  | succ fuel ih =>
    intro s
    cases hlk : lookupFr s.framesRendered s.buffer with
    | none =>
      have hstep : flushLoop (fuel + 1) s = s := by rw [flushLoop, hlk]
      rw [hstep]
    | some f =>
      have hstep : flushLoop (fuel + 1) s = flushLoop fuel (flushOne s f) := by
        rw [flushLoop, hlk]
      rw [hstep]
      have h1 := (flushOne_proj s f).2.1
      have h2 := ih (flushOne s f)
      omega

theorem stepOk_framesRendered_le (fs : ℕ → Frame) (s : RenderState) (n : ℕ) :
    s.framesRendered ≤ (stepOk fs s n).framesRendered := by
  simp only [stepOk]
  split_ifs with h
  · exact flushLoop_framesRendered_le (insertFr n (fs n) s.buffer).length
      { s with buffer := insertFr n (fs n) s.buffer,
               completions := s.completions ++ [n] }
  · exact flushLoop_framesRendered_le (insertFr n (fs n) s.buffer).length
      { s with buffer := insertFr n (fs n) s.buffer,
               completions := s.completions ++ [n] }

theorem runEvents_framesRendered_le (fs : ℕ → Frame) :
    ∀ (evs : List REvent) (s : RenderState),
    s.framesRendered ≤ (runEvents fs s evs).framesRendered := by
  intro evs
  induction evs with
  | nil => exact fun s => le_refl _
  | cons e rest ih =>
    intro s
    refine le_trans ?_ (ih (stepEv fs s e))
    cases e with
    | ok n => exact stepOk_framesRendered_le fs s n
    | err n => exact le_refl _

/-! ### Scheduler bookkeeping for arbitrary all-success runs -/

theorem runOk_count (fs : ℕ → Frame) (N W : ℕ) :
    ∀ (arr : List ℕ) (s : RenderState),
    s.numFrames = N → s.windowW = W →
    s.queued = max W (min (W + s.completions.length) N) →
    s.requests.length = min N W + (s.queued - W) →
    (runEvents fs s (arr.map REvent.ok)).numFrames = N ∧
    (runEvents fs s (arr.map REvent.ok)).windowW = W ∧
    (runEvents fs s (arr.map REvent.ok)).completions.length =
      s.completions.length + arr.length ∧
    (runEvents fs s (arr.map REvent.ok)).queued =
      max W (min (W + (s.completions.length + arr.length)) N) ∧
    (runEvents fs s (arr.map REvent.ok)).requests.length =
      min N W + ((runEvents fs s (arr.map REvent.ok)).queued - W) := by
  intro arr
  induction arr with
  | nil =>
    intro s h1 h2 h3 h4
    exact ⟨h1, h2, by simp [runEvents], by simpa [runEvents] using h3, h4⟩
  | cons a rest ih =>
    intro s h1 h2 h3 h4
    rw [List.map_cons, runEvents]
    simp only [stepEv]
    obtain ⟨sN, sW, _, sC, _, hqpos, hqneg⟩ := stepOk_sched fs s a
    have hWq : W ≤ s.queued := by rw [h3]; exact le_max_left _ _
    have hClen : (stepOk fs s a).completions.length = s.completions.length + 1 := by
      rw [sC, List.length_append, List.length_singleton]
    by_cases hq : s.queued < s.numFrames
    · obtain ⟨hq1, hr1⟩ := hqpos hq
      have hqN : s.queued < N := by rw [← h1]; exact hq
      obtain ⟨g1, g2, g3, g4, g5⟩ := ih (stepOk fs s a) (sN.trans h1) (sW.trans h2)
        (by rw [hq1, hClen]; rw [h3] at hqN ⊢; omega)
        (by rw [hr1, List.length_append, List.length_singleton, hq1, h4]; omega)
      exact ⟨g1, g2, by rw [g3, hClen, List.length_cons]; omega,
        by rw [g4, hClen, List.length_cons]; omega, g5⟩
    · obtain ⟨hq1, hr1⟩ := hqneg hq
      have hqN : ¬ s.queued < N := by rw [← h1]; exact hq
      obtain ⟨g1, g2, g3, g4, g5⟩ := ih (stepOk fs s a) (sN.trans h1) (sW.trans h2)
        (by rw [hq1, hClen]; rw [h3] at hqN ⊢; omega)
        (by rw [hr1, hq1]; exact h4)
      exact ⟨g1, g2, by rw [g3, hClen, List.length_cons]; omega,
        by rw [g4, hClen, List.length_cons]; omega, g5⟩

/-! ### Accrual arithmetic facts -/

theorem accrTime_nonneg_frepr (fs : ℕ → Frame) :
    ∀ n : ℕ, (∀ k, k < n →
      (0 : ℚ) ≤ (((fs k).durNum.getD 0 : ℤ) : ℚ) / (((fs k).durDen.getD 0 : ℤ) : ℚ)) →
    0 ≤ accrTime fs n ∧ FRepr (accrTime fs n) := by
  intro n
  induction n with
  | zero => exact fun _ => ⟨le_refl 0, Or.inl rfl⟩
  | succ n ih =>
    intro h
    obtain ⟨hnn, _⟩ := ih (fun k hk => h k (by omega))
    have hd : 0 ≤ durFl (fs n) := fl_nonneg (h n (by omega))
    have hsum : 0 ≤ accrTime fs n + durFl (fs n) := by linarith
    exact ⟨fl_nonneg hsum, fl_frepr hsum⟩

theorem accrTime_mono (fs : ℕ → Frame) (n : ℕ)
    (h : ∀ k, k ≤ n →
      (0 : ℚ) ≤ (((fs k).durNum.getD 0 : ℤ) : ℚ) / (((fs k).durDen.getD 0 : ℤ) : ℚ)) :
    accrTime fs n ≤ accrTime fs (n + 1) := by
  obtain ⟨hnn, hrep⟩ := accrTime_nonneg_frepr fs n (fun k hk => h k (by omega))
  have hd : 0 ≤ durFl (fs n) := fl_nonneg (h n (le_refl n))
  calc accrTime fs n = fl (accrTime fs n) := (frepr_fl hrep).symm
  _ ≤ fl (accrTime fs n + durFl (fs n)) := fl_mono hnn (by linarith)
  _ = accrTime fs (n + 1) := rfl

/-! ### Claim theorems -/

/-- Claim C6: the container header format tag is computed from the clip format
exactly as render.py lines 142-166 do: GRAY maps to the mono tag, the YUV
subsampling pairs map through the fixed table, any other pair raises the
unsupported-format error, a `p<bits>` suffix is appended exactly when
`bits_per_sample > 8`, and color families other than GRAY and YUV raise the
color-family error. -/
theorem c6_y4m_format_tag :
    (∀ ssw ssh bits : ℕ,
      y4mformat ⟨ColorFamily.gray, ssw, ssh, bits⟩ = Except.ok (withBits ("mono") bits)) ∧
    (∀ bits : ℕ,
      y4mformat ⟨ColorFamily.yuv, 1, 1, bits⟩ = Except.ok (withBits ("420") bits)) ∧
    (∀ bits : ℕ,
      y4mformat ⟨ColorFamily.yuv, 1, 0, bits⟩ = Except.ok (withBits ("422") bits)) ∧
    (∀ bits : ℕ,
      y4mformat ⟨ColorFamily.yuv, 0, 0, bits⟩ = Except.ok (withBits ("444") bits)) ∧
    (∀ bits : ℕ,
      y4mformat ⟨ColorFamily.yuv, 2, 2, bits⟩ = Except.ok (withBits ("410") bits)) ∧
    (∀ bits : ℕ,
      y4mformat ⟨ColorFamily.yuv, 2, 0, bits⟩ = Except.ok (withBits ("411") bits)) ∧
    (∀ bits : ℕ,
      y4mformat ⟨ColorFamily.yuv, 0, 1, bits⟩ = Except.ok (withBits ("440") bits)) ∧
    (∀ ssw ssh bits : ℕ,
      (ssw, ssh) ∉ ([(1, 1), (1, 0), (0, 0), (2, 2), (2, 0), (0, 1)] : List (ℕ × ℕ)) →
      y4mformat ⟨ColorFamily.yuv, ssw, ssh, bits⟩ =
        Except.error RenderError.badSubsampling) ∧
    (∀ (t : String) (bits : ℕ), 8 < bits → withBits t bits = t ++ "p" ++ toString bits) ∧
    (∀ (t : String) (bits : ℕ), bits ≤ 8 → withBits t bits = t) ∧
    y4mformat ⟨ColorFamily.yuv, 1, 1, 8⟩ = Except.ok ("420") ∧
    y4mformat ⟨ColorFamily.yuv, 1, 1, 10⟩ = Except.ok ("420p10") ∧
    (∀ ssw ssh bits : ℕ,
      y4mformat ⟨ColorFamily.rgb, ssw, ssh, bits⟩ =
        Except.error RenderError.badColorFamily) := by
  refine ⟨fun ssw ssh bits => rfl, fun bits => rfl, fun bits => rfl, fun bits => rfl,
    fun bits => rfl, fun bits => rfl, fun bits => rfl, ?_, ?_, ?_, rfl, rfl,
    fun ssw ssh bits => rfl⟩
  · intro ssw ssh bits h
    simp only [List.mem_cons, List.not_mem_nil, or_false, not_or] at h
    obtain ⟨h1, h2, h3, h4, h5, h6⟩ := h
    unfold y4mformat headerTag
    rw [if_neg (by simp), if_neg (by simp), if_neg h1, if_neg h2, if_neg h3, if_neg h4,
      if_neg h5, if_neg h6]
    rfl
  · intro t bits h
    unfold withBits
    rw [if_pos h]
  · intro t bits h
    unfold withBits
    rw [if_neg (by omega)]

/-- Claim C6 witness: the unknown subsampling pair (3, 1) is rejected, and a
10-bit 420 clip is tagged `420p10`. -/
theorem c6_y4m_format_tag_witness :
    y4mformat ⟨ColorFamily.yuv, 3, 1, 8⟩ = Except.error RenderError.badSubsampling ∧
    withBits ("420") 10 = "420" ++ "p" ++ toString 10 :=
  ⟨(c6_y4m_format_tag).2.2.2.2.2.2.2.1 3 1 8 (by decide),
    (c6_y4m_format_tag).2.2.2.2.2.2.2.2.1 ("420") 10 (by decide)⟩

/-- Claim C8: the configuration validation of `clip_async_render` runs only
under `if outfile:` (render.py line 142).  With no outfile, rendering starts
with no configuration error for every clip format, including a variable
format and an RGB clip, even when timecodes and callbacks are requested; with
an outfile, a variable-format clip and an RGB clip are rejected. -/
theorem c8_validation_only_with_outfile :
    (∀ (fmt : Option ClipFormat) (hasTc : Bool) (fs : ℕ → Frame) (N W : ℕ)
        (evs : List REvent),
      ∃ l, clip_async_render fmt false hasTc fs N W evs = Except.ok l) ∧
    (∀ (hasTc : Bool) (fs : ℕ → Frame) (N W : ℕ) (evs : List REvent),
      clip_async_render none true hasTc fs N W evs =
        Except.error RenderError.variableFormat) ∧
    (∀ (ssw ssh bits : ℕ) (hasTc : Bool) (fs : ℕ → Frame) (N W : ℕ)
        (evs : List REvent),
      clip_async_render (some ⟨ColorFamily.rgb, ssw, ssh, bits⟩) true hasTc fs N W evs =
        Except.error RenderError.badColorFamily) :=
  ⟨fun fmt hasTc fs N W evs => ⟨(runRender fs N W false hasTc evs).timecodes, rfl⟩,
    fun hasTc fs N W evs => rfl,
    fun ssw ssh bits hasTc fs N W evs => rfl⟩

/-- Claim C10: `f3kdb_mod` (deband.py lines 226-267) returns a clip exactly
when the working clip has bit depth 16 after the `bits > 16` conversion, that
is, when the input depth is at least 16; for any input below 16 bits the
function falls off the end of its body and returns None. -/
theorem c10_f3kdb_mod_none_below_16 :
    (∀ (c : VideoClip) (range : Option ℤ) (y : ℤ) (cb cr : Option ℤ)
        (grainy grainc : ℤ), c.bits < 16 →
      f3kdb_mod c range y cb cr grainy grainc = none) ∧
    (∀ (c : VideoClip) (range : Option ℤ) (y : ℤ) (cb cr : Option ℤ)
        (grainy grainc : ℤ), 16 ≤ c.bits →
      (f3kdb_mod c range y cb cr grainy grainc).isSome = true) := by
  constructor
  · intro c range y cb cr grainy grainc h
    simp only [f3kdb_mod]
    rw [if_neg (by omega : ¬ 16 < c.bits), if_neg (by omega : ¬ c.bits = 16)]
  · intro c range y cb cr grainy grainc h
    simp only [f3kdb_mod]
    by_cases h16 : 16 < c.bits
    · rw [if_pos h16, if_pos (show (vsDepth c 16).bits = 16 from rfl)]
      rfl
    · rw [if_neg h16, if_pos (by omega : c.bits = 16)]
      rfl

/-- Claim C10 witness: an 8-bit clip yields None, a 32-bit clip yields a
clip. -/
theorem c10_f3kdb_mod_witness :
    f3kdb_mod ⟨1920, 1080, 8, ColorFamily.yuv, false⟩ none 40 none none 0 0 = none ∧
    (f3kdb_mod ⟨1920, 1080, 32, ColorFamily.yuv, false⟩ none 40 none none 0 0).isSome
      = true :=
  ⟨(c10_f3kdb_mod_none_below_16).1 ⟨1920, 1080, 8, ColorFamily.yuv, false⟩
      none 40 none none 0 0 (by decide),
    (c10_f3kdb_mod_none_below_16).2 ⟨1920, 1080, 32, ColorFamily.yuv, false⟩
      none 40 none none 0 0 (by decide)⟩

/-- Claim C2 (code bug witnessed): in the spec scenario — 10 frames, window 3,
indices completing in order with the future for index 5 resolving to an
error — the exception raised by `f.result()` inside the done-callback is
swallowed by `concurrent.futures`, so nothing is propagated to the caller:
the run flushes frames 0-4 and then stalls with `frames_rendered = 5 ≠ 10`
while the driver waits on the condition forever, the completions of indices
6 and 7 still issue replacement requests for indices 8 and 9 (requests beyond
the window in flight at failure time), and after all futures complete nothing
is in flight, so no further event can ever wake the driver. -/
theorem c2_failure_swallowed_and_stalls :
    (runRender fsOne 10 3 false false c2evs).framesRendered = 5 ∧
    (runRender fsOne 10 3 false false c2evs).numFrames = 10 ∧
    (runRender fsOne 10 3 false false c2evs).swallowed = 1 ∧
    (runRender fsOne 10 3 false false (c2evs.take 6)).requests = List.range 8 ∧
    (runRender fsOne 10 3 false false c2evs).requests = List.range 10 ∧
    (runRender fsOne 10 3 false false c2evs).completions.length = 10 := by
  decide

/-- Claim C4 counterexample: with 3 frames and a window of 3 worker threads,
immediately after seeding, 3 requests are in flight while every frame index
has already been requested, so the number of in-flight requests (3) exceeds
`min(requestWindowSize, remainingUnrequested) = min(3, 0) = 0` as soon as the
operation starts. -/
theorem c4_window_bound_counterexample :
    ¬ (inFlight (initState 3 3 false false) ≤
        min (initState 3 3 false false).windowW
          (remainingUnrequested (initState 3 3 false false))) := by
  decide

/-- Claim C4 (amended): the scheduler seeds `min(total, W)` requests for
indices `0..min-1`, issues at most one replacement request per completion,
and for every all-success completion sequence keeps the number of in-flight
requests exactly `min(W, total - completed)` — hence bounded by the window
`W` and by the number of frames not yet completed (the claim's bound holds
with `remaining uncompleted`, not `remaining unrequested`, frames). -/
theorem c4_scheduler_window (fs : ℕ → Frame) (N W : ℕ) (hasOut hasTc : Bool)
    (arr : List ℕ) :
    (initState N W hasOut hasTc).requests = List.range (min N W) ∧
    (∀ (s : RenderState) (n : ℕ),
      (stepOk fs s n).requests.length ≤ s.requests.length + 1) ∧
    inFlight (runRender fs N W hasOut hasTc (arr.map REvent.ok)) =
      min W (N - arr.length) ∧
    inFlight (runRender fs N W hasOut hasTc (arr.map REvent.ok)) ≤ W := by
  have hsched : ∀ (s : RenderState) (n : ℕ),
      (stepOk fs s n).requests.length ≤ s.requests.length + 1 := by
    intro s n
    obtain ⟨_, _, _, _, _, hqpos, hqneg⟩ := stepOk_sched fs s n
    by_cases hq : s.queued < s.numFrames
    · rw [(hqpos hq).2, List.length_append, List.length_singleton]
    · rw [(hqneg hq).2]
      omega
  have hcount := runOk_count fs N W arr (initState N W hasOut hasTc) rfl rfl
    (by simp only [initState, List.length_nil, Nat.add_zero]; omega)
    (by simp only [initState, List.length_range]; omega)
  obtain ⟨g1, g2, g3, g4, g5⟩ := hcount
  have hfl : inFlight (runRender fs N W hasOut hasTc (arr.map REvent.ok)) =
      min W (N - arr.length) := by
    unfold inFlight runRender
    rw [g5, g3, g4]
    simp only [initState, List.length_nil]
    omega
  exact ⟨rfl, hsched, hfl, by rw [hfl]; omega⟩

/-- The run invariant holds after any prefix of a permutation of `0..N-1`. -/
theorem prefix_run_inv {fs : ℕ → Frame} {N W : ℕ} {hasOut hasTc : Bool}
    {arr : List ℕ} (hperm : arr.Perm (List.range N)) (j : ℕ) :
    Inv fs N W hasOut hasTc (arr.take j)
      (runRender fs N W hasOut hasTc ((arr.take j).map REvent.ok)) := by
  have hnd : arr.Nodup := hperm.nodup_iff.mpr (List.nodup_range N)
  have hmem : ∀ x, x ∈ arr ↔ x < N := fun x => by rw [hperm.mem_iff, List.mem_range]
  have h := runOk_inv (arr.take j) [] (initState N W hasOut hasTc)
    (init_inv fs N W hasOut hasTc) (hnd.sublist (List.take_sublist j arr))
    (fun x hx => (hmem x).mp (List.take_subset j arr hx))
    (fun x _ => by simp)
  rw [List.nil_append] at h
  exact h

/-- Claim C1 (amended): for every total frame count and every completion
order, the renderer hands each frame index `0..N-1` to the callbacks and the
output writer exactly once and in strictly increasing order, and each
completion flushes the whole maximal contiguous run starting at the cursor in
one step (after each completion the cursor points at an index that has not
yet arrived).  In the spec scenario — 8 frames, window 3, completions
arriving 2,0,1,4,3,6,5,7 — the flush batches are {0},{1,2},{3,4},{5,6},{7}
(not {0,1,2},{3,4},{5,6},{7}: frame 0 is flushed by the completion of 0
itself, before 1 completes). -/
theorem c1_flush_order (fs : ℕ → Frame) (N W : ℕ) (arr : List ℕ)
    (hperm : arr.Perm (List.range N)) (hden : DensOk fs N) :
    (runRender fs N W true true (arr.map REvent.ok)).cbFrames
      = (List.range N).map (fun k => (k, fs k)) ∧
    (runRender fs N W true true (arr.map REvent.ok)).outWrites = List.range N ∧
    (∀ j : ℕ,
      (runRender fs N W true true ((arr.take j).map REvent.ok)).cbFrames
        = (List.range
            (runRender fs N W true true
              ((arr.take j).map REvent.ok)).framesRendered).map
            (fun k => (k, fs k)) ∧
      (runRender fs N W true true ((arr.take j).map REvent.ok)).framesRendered ∉
        arr.take j) ∧
    flushBatches fsOne (initState 8 3 true true) [2, 0, 1, 4, 3, 6, 5, 7]
      = [[], [0], [1, 2], [], [3, 4], [], [5, 6], [7]] := by
  obtain ⟨hI, hr⟩ := @perm_run_inv fs N W true true arr hperm
  refine ⟨?_, ?_, ?_, by decide⟩
  · rw [hI.hCb, hr]
  · rw [hI.hOutW, hr]
    simp
  · intro j
    have hIj := @prefix_run_inv fs N W true true arr hperm j
    exact ⟨hIj.hCb, hIj.hCursor⟩

/-- Claim C1 witness at the spec scenario. -/
theorem c1_flush_order_witness :
    (runRender fsOne 8 3 true true ([2, 0, 1, 4, 3, 6, 5, 7].map REvent.ok)).outWrites
      = List.range 8 :=
  (c1_flush_order fsOne 8 3 [2, 0, 1, 4, 3, 6, 5, 7] (by decide) (by decide)).2.1

/-- Claim C1 counterexample to the stated flush batching: in the spec
scenario the nonempty flush batches are {0},{1,2},{3,4},{5,6},{7}, not
{0,1,2},{3,4},{5,6},{7}. -/
theorem c1_flush_batches_counterexample :
    ¬ ((flushBatches fsOne (initState 8 3 true true) [2, 0, 1, 4, 3, 6, 5, 7]).filter
        (fun b => !b.isEmpty) = [[0, 1, 2], [3, 4], [5, 6], [7]]) := by
  decide

/-- Claim C3 (amended): the first time a flushed frame lacks duration
metadata, timecode tracking is permanently disabled for the rest of the
operation, the accumulated timecodes sequence is cleared, a one-time
diagnostic is emitted — and the timecode file afterwards is completely
empty: `seek(0); truncate()` (render.py lines 118-119) discards the header
line along with all data lines, so the file does not hold "exactly the
header line". -/
theorem c3_bad_timecodes (fs : ℕ → Frame) (N W : ℕ) (hasOut : Bool) (arr : List ℕ)
    (hperm : arr.Perm (List.range N)) (hden : DensOk fs N)
    (hbad : ∃ k, k < N ∧ missingDur (fs k) = true) :
    (runRender fs N W hasOut true (arr.map REvent.ok)).badTimecodes = true ∧
    (runRender fs N W hasOut true (arr.map REvent.ok)).timecodes = [] ∧
    (runRender fs N W hasOut true (arr.map REvent.ok)).diagnostics = 1 ∧
    (runRender fs N W hasOut true (arr.map REvent.ok)).tcFile = [] ∧
    (runRender fs N W hasOut true (arr.map REvent.ok)).tcHandleOpen = false ∧
    (∀ j1 j2 : ℕ, j1 ≤ j2 →
      (runRender fs N W hasOut true ((arr.take j1).map REvent.ok)).badTimecodes
        = true →
      (runRender fs N W hasOut true ((arr.take j2).map REvent.ok)).badTimecodes
        = true) := by
  obtain ⟨hI, hr⟩ := @perm_run_inv fs N W hasOut true arr hperm
  have hbadfinal : (runRender fs N W hasOut true (arr.map REvent.ok)).badTimecodes
      = true := by
    obtain ⟨k, hk, hm⟩ := hbad
    exact hI.hBadIff.mpr ⟨k, by rw [hr]; exact hk, hm⟩
  refine ⟨hbadfinal, hI.hTcBad hbadfinal, hI.hDiag1 hbadfinal, hI.hFileBad hbadfinal,
    ?_, ?_⟩
  · rw [hI.hHandle, hbadfinal]
    rfl
  · intro j1 j2 hj hbad1
    have hIj1 := @prefix_run_inv fs N W hasOut true arr hperm j1
    have hIj2 := @prefix_run_inv fs N W hasOut true arr hperm j2
    have hseg : arr.take j2 = arr.take j1 ++ ((arr.take j2).drop j1) := by
      conv_lhs => rw [← List.take_append_drop j1 (arr.take j2)]
      rw [List.take_take, min_eq_left hj]
    have hrun2 : runRender fs N W hasOut true ((arr.take j2).map REvent.ok)
        = runEvents fs (runRender fs N W hasOut true ((arr.take j1).map REvent.ok))
            (((arr.take j2).drop j1).map REvent.ok) := by
      unfold runRender
      conv_lhs => rw [hseg, List.map_append]
      rw [runEvents_append]
    have hr12 : (runRender fs N W hasOut true
          ((arr.take j1).map REvent.ok)).framesRendered ≤
        (runRender fs N W hasOut true
          ((arr.take j2).map REvent.ok)).framesRendered := by
      rw [hrun2]
      exact runEvents_framesRendered_le fs _ _
    obtain ⟨k, hk, hm⟩ := hIj1.hBadIff.mp hbad1
    exact hIj2.hBadIff.mpr ⟨k, by omega, hm⟩

/-- Claim C3 witness at the spec scenario: frame 3 of 10 lacks duration
properties. -/
theorem c3_bad_timecodes_witness :
    (runRender fs3 10 3 false true ((List.range 10).map REvent.ok)).badTimecodes
      = true :=
  (c3_bad_timecodes fs3 10 3 false (List.range 10) (List.Perm.refl _) (by decide)
    ⟨3, by decide, by decide⟩).1

/-- Claim C3 counterexample to the stated file contents: in the spec scenario
(frame 3 of 10 missing duration, frames 0-2 carrying it) the timecode file
ends up completely empty, not equal to just the header line. -/
theorem c3_header_line_counterexample :
    (runRender fs3 10 3 false true ((List.range 10).map REvent.ok)).tcFile ≠
      [TcLine.header] ∧
    (runRender fs3 10 3 false true ((List.range 10).map REvent.ok)).tcFile = [] := by
  decide

/-- `1/3` is not exactly representable in binary64: a representable value is
a 53-bit significand times a power of two, and `3` divides no power of two. -/
theorem third_not_frepr : ¬ FRepr (1/3 : ℚ) := by
  rintro (h0 | ⟨m, e, hxe, hm1, hm2⟩)
  · norm_num at h0
  · have h1 : (3 : ℚ) * ((m : ℚ) * pow2 e) = 1 := by
      rw [← hxe]; norm_num
    have hz : -e + e = 0 := by ring
    have hprod : pow2 (-e) * pow2 e = 1 := by
      rw [← pow2_add, hz]; simp [pow2]
    have hpe : pow2 (-e) = 3 * (m : ℚ) := by
      calc pow2 (-e) = pow2 (-e) * ((3 : ℚ) * ((m : ℚ) * pow2 e)) := by
            rw [h1, mul_one]
        _ = 3 * (m : ℚ) * (pow2 (-e) * pow2 e) := by ring
        _ = 3 * (m : ℚ) := by rw [hprod, mul_one]
    rcases le_or_lt 0 (-e) with he | he
    · have hke : (((-e).toNat : ℕ) : ℤ) = -e := Int.toNat_of_nonneg he
      have h2 : ((2 ^ (-e).toNat : ℕ) : ℚ) = ((3 * m : ℕ) : ℚ) := by
        rw [← pow2_ofNat, hke, hpe]
        push_cast
        ring
      have h3 : 2 ^ (-e).toNat = 3 * m := Nat.cast_injective h2
      have h4 : (3 : ℕ) ∣ 2 ^ (-e).toNat := ⟨m, h3⟩
      have h5 : (3 : ℕ) ∣ 2 := Nat.Prime.dvd_of_dvd_pow Nat.prime_three h4
      norm_num at h5
    · have h2 : pow2 (-e) < pow2 0 := pow2_lt_pow2_iff.mpr he
      have h3 : pow2 0 = 1 := by simp [pow2]
      have h4 : (1 : ℚ) ≤ (m : ℚ) := by
        have hm : 1 ≤ m := le_trans (by norm_num) hm1
        exact_mod_cast hm
      linarith

/-- Rounding `1/3` to binary64 moves it. -/
theorem fl_third_ne : fl (1/3 : ℚ) ≠ 1/3 := by
  intro h
  exact third_not_frepr (h ▸ fl_frepr (by norm_num : (0 : ℚ) ≤ 1/3))

/-- The binary64 value of `1/3` is exactly `6004799503160661 / 2^54`. -/
theorem fl_third_val : fl (1/3 : ℚ) = 6004799503160661/18014398509481984 := by
  have h1 : pow2 (-2 : ℤ) ≤ (1/3 : ℚ) := by
    rw [pow2_eq_zpow]; norm_num
  have h2 : (1/3 : ℚ) < pow2 ((-2 : ℤ) + 1) := by
    rw [pow2_eq_zpow]; norm_num
  have hflog2 : flog2 (1/3 : ℚ) = -2 := flog2_eq_of h1 h2
  have hfloor : ⌊(18014398509481984 : ℚ)/3⌋ = 6004799503160661 := by
    rw [Int.floor_eq_iff]
    constructor <;> norm_num
  have hrne : rne ((18014398509481984 : ℚ)/3) = 6004799503160661 := by
    unfold rne
    rw [hfloor]
    split_ifs with hc1 hc2 hc3
    · rfl
    all_goals exact absurd (by norm_num) hc1
  have hdiv : (1/3 : ℚ) / pow2 (flog2 (1/3 : ℚ) - 52) = (18014398509481984 : ℚ)/3 := by
    rw [hflog2, show ((-2 : ℤ) - 52) = -54 from by norm_num, pow2_eq_zpow, zpow_neg]
    norm_num
  rw [fl, if_neg (by norm_num), if_pos (by norm_num)]
  unfold flPos
  rw [hdiv, hrne, hflog2, show ((-2 : ℤ) - 52) = -54 from by norm_num, pow2_eq_zpow,
    zpow_neg]
  norm_num

/-- The one-frame accrual over duration 1/3 is one rounded division followed
by a rounded addition of `0.0`, which leaves the rounded quotient unchanged. -/
theorem accrTime_fsThird_one : accrTime fsThird 1 = fl (1/3 : ℚ) := by
  have hstep : accrTime fsThird 1 = fl (accrTime fsThird 0 + durFl (fsThird 0)) := rfl
  have hd : durFl (fsThird 0) = fl (((1 : ℤ) : ℚ) / ((3 : ℤ) : ℚ)) := rfl
  have harg : ((1 : ℤ) : ℚ) / ((3 : ℤ) : ℚ) = (1/3 : ℚ) := by norm_num
  have h0 : accrTime fsThird 0 = 0 := rfl
  rw [hstep, h0, hd, harg, zero_add]
  exact frepr_fl (fl_frepr (by norm_num))

/-- The one-frame duration-1/3 render ends with timecodes `[0.0, accrTime 1]`. -/
theorem runThird_timecodes :
    (runRender fsThird 1 1 false false ([0].map REvent.ok)).timecodes
      = [0, accrTime fsThird 1] := by
  obtain ⟨hI, hr⟩ := @perm_run_inv fsThird 1 1 false false [0] (by decide)
  have hgood : (runRender fsThird 1 1 false false ([0].map REvent.ok)).badTimecodes
      = false := by
    cases h : (runRender fsThird 1 1 false false ([0].map REvent.ok)).badTimecodes with
    | false => rfl
    | true =>
      obtain ⟨k, hk, hm⟩ := hI.hBadIff.mp h
      have hmk : missingDur (fsThird k) = false := rfl
      rw [hmk] at hm
      exact absurd hm (by simp)
  rw [hI.hTcGood hgood, hr]
  rfl

/-- Claim C5 counterexample to exact rational accrual: one frame of duration
1/3 second stores the binary64 value `fl(0 + fl(1/3)) = 6004799503160661/2^54`,
not the exact rational 1/3 — the accrual is floating-point, not exact
rational arithmetic. -/
theorem c5_exact_rational_counterexample :
    (runRender fsThird 1 1 false false ([0].map REvent.ok)).timecodes ≠
      [0, 1 / 3] ∧
    (runRender fsThird 1 1 false false ([0].map REvent.ok)).timecodes =
      [0, 6004799503160661 / 18014398509481984] := by
  have hval : accrTime fsThird 1 = (6004799503160661 : ℚ)/18014398509481984 := by
    rw [accrTime_fsThird_one, fl_third_val]
  constructor
  · rw [runThird_timecodes, hval]
    intro h
    norm_num at h
  · rw [runThird_timecodes, hval]

/-- Claim C5 (amended): while timecode tracking is enabled, each flushed
frame appends `fl(prev + fl(num / den))` — one correctly rounded binary64
division followed by one correctly rounded binary64 addition, the Python
float arithmetic of render.py lines 124-126 — independently of the
completion order; the accrual is floating-point, not exact rational
arithmetic, as the duration-1/3 example shows. -/
theorem c5_float_accrual (fs : ℕ → Frame) (N W : ℕ) (hasOut hasTc : Bool)
    (arr : List ℕ) (hperm : arr.Perm (List.range N)) (hden : DensOk fs N)
    (hprops : ∀ k, k < N → missingDur (fs k) = false) :
    (runRender fs N W hasOut hasTc (arr.map REvent.ok)).timecodes
      = (List.range (N + 1)).map (accrTime fs) ∧
    accrTime fsThird 1 ≠ 1 / 3 := by
  obtain ⟨hI, hr⟩ := @perm_run_inv fs N W hasOut hasTc arr hperm
  have hgood : (runRender fs N W hasOut hasTc (arr.map REvent.ok)).badTimecodes
      = false := by
    cases h : (runRender fs N W hasOut hasTc (arr.map REvent.ok)).badTimecodes with
    | false => rfl
    | true =>
      obtain ⟨k, hk, hm⟩ := hI.hBadIff.mp h
      rw [hr] at hk
      rw [hprops k hk] at hm
      exact absurd hm (by simp)
  refine ⟨?_, ?_⟩
  · rw [hI.hTcGood hgood, hr]
  · rw [accrTime_fsThird_one]
    exact fl_third_ne

/-- Claim C5 witness: a two-frame render with duration 1/1 frames. -/
theorem c5_float_accrual_witness :
    (runRender fsOne 2 2 false false ([0, 1].map REvent.ok)).timecodes
      = (List.range (2 + 1)).map (accrTime fsOne) :=
  (c5_float_accrual fsOne 2 2 false false [0, 1] (by decide) (by decide)
    (by decide)).1

/-- Claim C9: when every frame carries duration metadata (with non-negative
durations), the list returned by `clip_async_render` has exactly
`num_frames + 1` elements, starts with 0.0 and is non-decreasing; when any
frame lacked duration metadata, the returned list is empty rather than a
partial prefix. -/
theorem c9_timecode_list (fs : ℕ → Frame) (N W : ℕ) (hasOut hasTc : Bool)
    (arr : List ℕ) (hperm : arr.Perm (List.range N)) (hden : DensOk fs N) :
    ((∀ k, k < N → missingDur (fs k) = false) →
      (∀ k, k < N →
        (0 : ℚ) ≤ (((fs k).durNum.getD 0 : ℤ) : ℚ) /
          (((fs k).durDen.getD 0 : ℤ) : ℚ)) →
      (runRender fs N W hasOut hasTc (arr.map REvent.ok)).timecodes.length = N + 1 ∧
      (runRender fs N W hasOut hasTc (arr.map REvent.ok)).timecodes.head? = some 0 ∧
      List.Chain' (· ≤ ·)
        (runRender fs N W hasOut hasTc (arr.map REvent.ok)).timecodes) ∧
    ((∃ k, k < N ∧ missingDur (fs k) = true) →
      (runRender fs N W hasOut hasTc (arr.map REvent.ok)).timecodes = []) := by
  obtain ⟨hI, hr⟩ := @perm_run_inv fs N W hasOut hasTc arr hperm
  constructor
  · intro hprops hdur
    have hgood : (runRender fs N W hasOut hasTc (arr.map REvent.ok)).badTimecodes
        = false := by
      cases h : (runRender fs N W hasOut hasTc (arr.map REvent.ok)).badTimecodes with
      | false => rfl
      | true =>
        obtain ⟨k, hk, hm⟩ := hI.hBadIff.mp h
        rw [hr] at hk
        rw [hprops k hk] at hm
        exact absurd hm (by simp)
    have htc := hI.hTcGood hgood
    rw [hr] at htc
    refine ⟨?_, ?_, ?_⟩
    · rw [htc, List.length_map, List.length_range]
    · rw [htc, List.range_succ_eq_map]
      rfl
    · rw [htc, List.chain'_map, List.chain'_range_succ]
      intro m hm
      exact accrTime_mono fs m (fun k hk => hdur k (by omega))
  · intro hbad
    obtain ⟨k, hk, hm⟩ := hbad
    exact hI.hTcBad (hI.hBadIff.mpr ⟨k, by rw [hr]; exact hk, hm⟩)

/-- Claim C9 witness: two frames of duration 1/1. -/
theorem c9_timecode_list_witness :
    (runRender fsOne 2 2 false false ([0, 1].map REvent.ok)).timecodes.length
      = 2 + 1 :=
  ((c9_timecode_list fsOne 2 2 false false [0, 1] (by decide) (by decide)).1
    (by decide) (by intro k hk; norm_num [fsOne])).1

/-- Claim C7: `find_scene_changes` returns an ascending, duplicate-free list
containing exactly the indices flagged according to the selected mode (wwxd
alone, scxvid alone, their union, their intersection) — it equals the
flagged filter of `0..N-1`. -/
theorem c7_scene_changes (fs : ℕ → Frame) (N W : ℕ) (mode : SceneChangeMode)
    (arr : List ℕ) (hperm : arr.Perm (List.range N)) (hden : DensOk fs N) :
    find_scene_changes fs N W mode arr
      = (List.range N).filter (fun n => sceneChangeFlag mode (fs n)) ∧
    List.Sorted (· < ·) (find_scene_changes fs N W mode arr) ∧
    (∀ n, n ∈ find_scene_changes fs N W mode arr ↔
      n < N ∧ sceneChangeFlag mode (fs n) = true) := by
  obtain ⟨hI, hr⟩ := @perm_run_inv fs N W false false arr hperm
  have harg : ((((List.range N).map (fun k => (k, fs k))).filter
      (fun nf => sceneChangeFlag mode nf.2)).map Prod.fst)
      = (List.range N).filter (fun n => sceneChangeFlag mode (fs n)) := by
    rw [List.filter_map (fun k => (k, fs k)) (List.range N), List.map_map,
      show (Prod.fst ∘ fun k : ℕ => (k, fs k)) = @id ℕ from rfl,
      show ((fun nf : ℕ × Frame => sceneChangeFlag mode nf.2) ∘ fun k : ℕ => (k, fs k))
        = (fun n => sceneChangeFlag mode (fs n)) from rfl,
      List.map_id]
  have hsorted : List.Sorted (· ≤ ·)
      ((List.range N).filter (fun n => sceneChangeFlag mode (fs n))) :=
    List.Pairwise.imp (fun h => le_of_lt h) ((List.pairwise_lt_range N).filter _)
  have hbase : find_scene_changes fs N W mode arr
      = (List.range N).filter (fun n => sceneChangeFlag mode (fs n)) := by
    unfold find_scene_changes
    rw [hI.hCb, hr, harg]
    exact List.Sorted.insertionSort_eq hsorted
  refine ⟨hbase, ?_, ?_⟩
  · rw [hbase]
    exact (List.pairwise_lt_range N).filter _
  · intro n
    rw [hbase, List.mem_filter, List.mem_range]

/-- Claim C7 witness: six frames with wwxd flagging even indices and scxvid
flagging multiples of three, in union mode. -/
theorem c7_scene_changes_witness :
    List.Sorted (· < ·)
      (find_scene_changes fsFlags 6 3 SceneChangeMode.WWXD_SCXVID_UNION
        [0, 1, 2, 3, 4, 5]) :=
  (c7_scene_changes fsFlags 6 3 SceneChangeMode.WWXD_SCXVID_UNION [0, 1, 2, 3, 4, 5]
    (by decide) (by decide)).2.1

end Lvs
